import Mathlib

/-!
Shallow embedding of the scholar-crawler repository: the entity model and
resolution graph of `src/graphs/graphs.py` and the request state machine of
`src/requests.py` / `src/scholar_crawler/queue.py`, together with theorems
settling the specification claims.

Python strings are modelled as `List Char` (Unicode scalar values); Python
dicts as insertion-ordered association lists; Python sets as duplicate-free
lists (element order is irrelevant to set semantics, and every place the
source iterates a set, whose order Python leaves unspecified, iterates the
ascending order); exceptions as explicit error values.  Randomly drawn identifier suffixes are
passed in as explicit arguments.  `md5_11`, the composite
`int(md5(x).hexdigest()[:11], 16)` of the external `hashlib` library, is a
parameter of the document model.
-/

namespace SC


/-- Python strings, modelled as lists of Unicode scalar values. -/
abbrev Str := List Char

/-- The Python exception kinds raised by the embedded code. -/
inductive PyErr where
  | valueError
  | indexError
  | keyError
  | typeError
  deriving DecidableEq

instance {ε α : Type} [DecidableEq ε] [DecidableEq α] :
    DecidableEq (Except ε α) := fun x y =>
  match x, y with
  | .error a, .error b =>
    if h : a = b then isTrue (by rw [h])
    else isFalse (fun hc => h (Except.error.inj hc))
  | .ok a, .ok b =>
    if h : a = b then isTrue (by rw [h])
    else isFalse (fun hc => h (Except.ok.inj hc))
  | .error _, .ok _ => isFalse (fun hc => Except.noConfusion hc)
  | .ok _, .error _ => isFalse (fun hc => Except.noConfusion hc)

/-- Python string comparison `a < b` (lexicographic by code point,
a proper prefix is smaller). -/
def strLt (a b : Str) : Prop := List.Lex (· < ·) a b

instance : DecidableRel strLt := fun a b => List.Lex.decidableRel (· < ·) a b

/-- Python `max([a, b])` on strings: the second element wins only when strictly
greater than the first. -/
def pyMax (a b : Str) : Str := if strLt a b then b else a

/-- Python `''.join(parts)` (concatenation of a list of strings). -/
def catStrs : List Str → Str
  | [] => []
  | x :: t => x ++ catStrs t

/-- Python `s.split(sep)` for a one-character separator. -/
def pySplit (sep : Char) : Str → List Str
  | [] => [[]]
  | c :: cs =>
    if c = sep then [] :: pySplit sep cs
    else
      match pySplit sep cs with
      | [] => [[]]
      | h :: t => (c :: h) :: t

/-- Python `sep.join(pieces)`. -/
def pyJoin (sep : Char) : List Str → Str
  | [] => []
  | [x] => x
  | x :: y :: t => x ++ sep :: pyJoin sep (y :: t)

/-- Python `sorted` on a list of strings (ascending lexicographic order). -/
def sortStrs (l : List Str) : List Str := l.insertionSort (· ≤ ·)

/-- Python `s.rsplit(' ', 1)`: `none` when `s` contains no space, otherwise
the text before and the text after the last space. -/
def rsplitSpace : Str → Option (Str × Str)
  | [] => none
  | c :: cs =>
    match rsplitSpace cs with
    | some (u, v) => some (c :: u, v)
    | none => if c = ' ' then some ([], cs) else none

/-! ### Unicode model for `shave_marks_latin`

`unicodedata` is external library data; it is embedded here by explicit
tables covering the Latin-diacritic alphabet this development works over:
combining marks are the Combining Diacritical Marks block U+0300 to U+036F,
and canonical (de)composition is given by a table of precomposed Latin
letters. -/

/-- Models `unicodedata.combining(c) != 0` on the modelled alphabet. -/
def isCombining (c : Char) : Bool := 0x300 ≤ c.toNat && c.toNat ≤ 0x36F

/-- Models `c in string.ascii_letters` (code points 65-90 and 97-122). -/
def isAsciiLetter (c : Char) : Bool :=
  (65 ≤ c.toNat && c.toNat ≤ 90) || (97 ≤ c.toNat && c.toNat ≤ 122)

/-- Canonical decomposition data (precomposed letter, base letter, combining
mark) embedding the NFD table on the modelled alphabet. -/
def decompTable : List (Char × Char × Char) :=
  [('á', 'a', '́'), ('é', 'e', '́'), ('í', 'i', '́'),
   ('ó', 'o', '́'), ('ú', 'u', '́'), ('ñ', 'n', '̃'),
   ('ä', 'a', '̈'), ('ö', 'o', '̈'), ('ü', 'u', '̈'),
   ('Á', 'A', '́'), ('É', 'E', '́'), ('Í', 'I', '́'),
   ('Ó', 'O', '́'), ('Ú', 'U', '́'), ('Ñ', 'N', '̃')]

/-- Decomposition of one character, when the table has it. -/
def decompLookup (c : Char) : Option (Char × Char) :=
  (decompTable.find? (fun e => e.1 = c)).map (fun e => e.2)

/-- Composition of an adjacent (base, mark) pair, when the table has it. -/
def composeLookup (b m : Char) : Option Char :=
  (decompTable.find? (fun e => e.2.1 = b && e.2.2 = m)).map (fun e => e.1)

/-- Models `unicodedata.normalize('NFD', txt)` on the modelled alphabet. -/
def nfd : Str → Str
  | [] => []
  | c :: cs =>
    match decompLookup c with
    | some (b, m) => b :: m :: nfd cs
    | none => c :: nfd cs

/-- The keep/drop scan of `shave_marks_latin`: a combining mark is dropped
exactly when the most recent base character was an ASCII Latin letter. -/
def shaveCore (latinBase : Bool) : Str → Str
  | [] => []
  | c :: cs =>
    if isCombining c then
      if latinBase then shaveCore latinBase cs
      else c :: shaveCore latinBase cs
    else c :: shaveCore (isAsciiLetter c) cs

/-- Models `unicodedata.normalize('NFC', txt)` on the modelled alphabet:
recomposes adjacent (base, combining mark) pairs from the table. -/
def nfc : Str → Str
  | [] => []
  | [c] => [c]
  | b :: m :: t =>
    match composeLookup b m with
    | some p => p :: nfc t
    | none => b :: nfc (m :: t)

/-- Models `shave_marks_latin` of `graphs.py`. -/
def shave_marks_latin (txt : Str) : Str := nfc (shaveCore false (nfd txt))

/-- Lower-case data (upper-case character, its lower case) embedding
`str.lower()` on the modelled alphabet. -/
def lowerTable : List (Char × Char) :=
  [('A', 'a'), ('B', 'b'), ('C', 'c'), ('D', 'd'), ('E', 'e'), ('F', 'f'),
   ('G', 'g'), ('H', 'h'), ('I', 'i'), ('J', 'j'), ('K', 'k'), ('L', 'l'),
   ('M', 'm'), ('N', 'n'), ('O', 'o'), ('P', 'p'), ('Q', 'q'), ('R', 'r'),
   ('S', 's'), ('T', 't'), ('U', 'u'), ('V', 'v'), ('W', 'w'), ('X', 'x'),
   ('Y', 'y'), ('Z', 'z'),
   ('Á', 'á'), ('É', 'é'), ('Í', 'í'), ('Ó', 'ó'), ('Ú', 'ú'), ('Ñ', 'ñ')]

/-- Models `str.lower()` on one character of the modelled alphabet. -/
def pyLowerChar (c : Char) : Char :=
  ((lowerTable.find? (fun e => e.1 = c)).map (fun e => e.2)).getD c

/-- Models `str.lower()`. -/
def pyLower (s : Str) : Str := s.map pyLowerChar

/-! ### The `Author` entity of `graphs.py` -/

/-- The `Author` record: diacritic-normalised display name, identifier,
optional parent-id string, and the `filn` match key (first initial of the
lowercased name, lowercased text after the last space). -/
structure Author where
  name : Str
  author_id : Str
  parent_id : Option Str
  filn : Char × Str
  deriving DecidableEq

/-- Models `Author._make_id`: a truthy given id is kept, otherwise a
placeholder `'#' + rand` is synthesised from the random draw. -/
def makeId (x : Option Str) (rand : Str) : Str :=
  match x with
  | some s => if s = [] then '#' :: rand else s
  | none => '#' :: rand

/-- Models `Author.__init__`.  `rsplit(' ', 1)` fails to unpack
(Python `ValueError`) when the name has no space; `f[0]` raises
`IndexError` when the part before the last space is empty. -/
def mkAuthor (name : Str) (author_id : Option Str) (parent_id : Option Str)
    (rand : Str) : Except PyErr Author :=
  match rsplitSpace (pyLower name) with
  | none => .error .valueError
  | some ([], _) => .error .indexError
  | some (c :: _, l) =>
    .ok ⟨shave_marks_latin name, makeId author_id rand, parent_id, (c, l)⟩

/-- Models `Author.merge` (the spec's `symmetricUpdate`); the caller re-points
both registry entries to the returned reconciled record.  The random draw
`rand` is threaded to the constructor (unused whenever the surviving id is
non-empty). -/
def Author.merge (a other : Author) (rand : Str) : Except PyErr Author :=
  if a.filn ≠ other.filn then .error .valueError
  else
    let name := if other.name.length > a.name.length then other.name else a.name
    let aid := pyMax a.author_id other.author_id
    let pid : Option Str :=
      match a.parent_id, other.parent_id with
      | some pa, some pb =>
        some (pyJoin '|' (sortStrs (pySplit '|' pa ++ pySplit '|' pb)))
      | _, _ => none
    mkAuthor name (some aid) pid rand

/-! ### The `Document` entity of `graphs.py` -/

/-- The keyword fields handed to `Document.__init__` (after `add_document`
lower-cases the dict keys). -/
structure DocInput where
  title : Str := []
  parent_author : Str := []
  authors : List Str := []
  publication_date : Str := []
  pages : Str := []
  publisher : Str := []
  journal : Str := []
  volume : Str := []
  issue : Str := []
  conference : Str := []
  book : Str := []
  deriving DecidableEq

/-- Models `sorted(filter(lambda x: ' ' in x, set(authors)))`. -/
def docAuthors (authors : List Str) : List Str :=
  sortStrs ((authors.dedup).filter (fun s => s.contains ' '))

/-- Models `Document._make_hash`.  `md5_11` embeds
`int(md5(x).hexdigest()[:11], 16)`.  In the final fallback the source omits
`.hexdigest()`, so `int(h[:11], 16)` is applied to the md5 object and raises
`TypeError`. -/
def makeHash (md5_11 : Str → Nat) (d : DocInput) : Except PyErr Nat :=
  let j := if d.journal ≠ [] then d.journal
           else if d.conference ≠ [] then d.conference else d.book
  let v := d.volume ++ d.issue
  let parts := [j, v, d.pages, d.publication_date, d.publisher].filter
    (fun x => !x.isEmpty)
  if parts.length ≥ 4 then .ok (md5_11 (catStrs parts))
  else if d.title ≠ [] then .ok (md5_11 d.title)
  else if d.book ≠ [] then .ok (md5_11 d.book)
  else .error .typeError

/-- The `Document` record after successful construction. -/
structure Document where
  title : Str
  parent_author : Str
  authors : List Str
  publication_date : Str
  pages : Str
  publisher : Str
  journal : Str
  volume : Str
  issue : Str
  conference : Str
  book : Str
  doc_id : Str
  fingerprint : Nat
  deriving DecidableEq

/-- Models `Document.__init__`; `rand` is the random draw for `doc_id`.
Document identity (`__hash__` / `__eq__`) is fingerprint equality. -/
def mkDocument (md5_11 : Str → Nat) (rand : Str) (d : DocInput) :
    Except PyErr Document :=
  let das := docAuthors d.authors
  match makeHash md5_11 { d with authors := das } with
  | .error e => .error e
  | .ok h =>
    .ok { title := d.title, parent_author := d.parent_author, authors := das,
          publication_date := d.publication_date, pages := d.pages,
          publisher := d.publisher, journal := d.journal, volume := d.volume,
          issue := d.issue, conference := d.conference, book := d.book,
          doc_id := '@' :: rand, fingerprint := h }

/-! ### The `Graph` of `graphs.py`

Python dicts are insertion-ordered association lists (assignment to an
existing key updates the value in place and keeps the original key object);
Python sets are duplicate-free lists, iterated in ascending order where the
source iterates a set whose order is unspecified.  Operations return the
mutated state together with an optional error; on an error the mutations
already performed remain, as in Python. -/

/-- Python `set.add`: appends the element when absent. -/
def setAdd (s : List Str) (x : Str) : List Str := if x ∈ s then s else s ++ [x]

/-- Python `set.update`: adds every element of `t`. -/
def setUnion (s t : List Str) : List Str := t.foldl setAdd s

/-- The `Graph` state: `author_ids` is the identity registry, `authors` the
`defaultdict(set)` adjacency from an author id (or `None`) to coauthor ids,
`documents` the document → resolved-coauthor-id-set map keyed by fingerprint
equality. -/
structure Graph where
  author_ids : List (Str × Author)
  authors : List (Option Str × List Str)
  documents : List (Document × List Str)
  deriving DecidableEq

/-- The state built by `Graph.__init__`. -/
def Graph.empty : Graph := ⟨[], [], []⟩

/-- Dict lookup by key equality. -/
def dictLookup {V : Type} : List (Str × V) → Str → Option V
  | [], _ => none
  | (k', v) :: t, k => if k' = k then some v else dictLookup t k

/-- Dict assignment: update in place, or append a new key at the end. -/
def dictInsert {V : Type} : List (Str × V) → Str → V → List (Str × V)
  | [], k, v => [(k, v)]
  | (k', v') :: t, k, v =>
    if k' = k then (k, v) :: t else (k', v') :: dictInsert t k v

/-- Lookup in the `authors` adjacency map (keys may be Python `None`). -/
def adjLookup : List (Option Str × List Str) → Option Str → Option (List Str)
  | [], _ => none
  | (k', v) :: t, k => if k' = k then some v else adjLookup t k

/-- Assignment in the `authors` adjacency map. -/
def adjInsert : List (Option Str × List Str) → Option Str → List Str →
    List (Option Str × List Str)
  | [], k, v => [(k, v)]
  | (k', v') :: t, k, v =>
    if k' = k then (k, v) :: t else (k', v') :: adjInsert t k v

/-- A `defaultdict(set)` read: returns the entry and the map, inserting an
empty set when the key is absent. -/
def adjDefault (m : List (Option Str × List Str)) (k : Option Str) :
    List Str × List (Option Str × List Str) :=
  match adjLookup m k with
  | some v => (v, m)
  | none => ([], m ++ [(k, [])])

/-- Lookup in `documents` by fingerprint (Python `doc in self.documents` /
`self.documents[doc]`, since document equality is fingerprint equality). -/
def docLookup : List (Document × List Str) → Nat → Option (List Str)
  | [], _ => none
  | (d, v) :: t, fp => if d.fingerprint = fp then some v else docLookup t fp

/-- Assignment into `documents`: a fingerprint-equal existing key keeps the
original key object, only the value is replaced. -/
def docInsert : List (Document × List Str) → Document → List Str →
    List (Document × List Str)
  | [], d, v => [(d, v)]
  | (d', v') :: t, d, v =>
    if d'.fingerprint = d.fingerprint then (d', v) :: t
    else (d', v') :: docInsert t d v

/-- Models `Graph.add_author`. -/
def addAuthor (g : Graph) (name : Str) (author_id : Option Str) (rand : Str) :
    Graph × Option PyErr :=
  match mkAuthor name author_id none rand with
  | .error e => (g, some e)
  | .ok a =>
    let g1 := { g with author_ids := dictInsert g.author_ids a.author_id a }
    let g2 := { g1 with authors := (adjDefault g1.authors (some a.author_id)).2 }
    (g2, none)

/-- The inner scan of `deduplicate_coauthors` over the recorded coauthor-id
set: the candidate variable `dca` is bound once per outer index and is not
refreshed inside the scan, exactly as in the source. -/
def dedupScan (dca : Author) (ix : Nat) (newDoc : Bool) :
    Graph → List Author → List Str → Graph × List Author × Option PyErr
  | g, dcs, [] => (g, dcs, none)
  | g, dcs, aId :: rest =>
    match dictLookup g.author_ids aId with
    | none => (g, dcs, some .keyError)
    | some pca =>
      if dca.filn = pca.filn then
        if newDoc then dedupScan dca ix newDoc g (dcs.set ix pca) rest
        else
          match dca.merge pca [] with
          | .error e => (g, dcs, some e)
          | .ok newAuth =>
            let reg := dictInsert (dictInsert g.author_ids dca.author_id newAuth)
              pca.author_id newAuth
            dedupScan dca ix newDoc { g with author_ids := reg }
              (dcs.set ix newAuth) rest
      else dedupScan dca ix newDoc g dcs rest

/-- The outer loop of `deduplicate_coauthors`: indices descend as in
`reversed(range(len(doc_coauthors)))`; the source pops only at the current
index, so lower indices stay valid. -/
def dedupOuter (parent : Author) (newDoc : Bool) (aIds : List Str) :
    Graph → List Author → Nat → Graph × List Author × Option PyErr
  | g, dcs, 0 => (g, dcs, none)
  | g, dcs, ix + 1 =>
    match dcs[ix]? with
    | none => dedupOuter parent newDoc aIds g dcs ix
    | some dca =>
      if parent.filn = dca.filn then
        let dcs2 := dcs.eraseIdx ix
        let g2 := if newDoc then g
          else { g with author_ids := dictInsert g.author_ids dca.author_id parent }
        dedupOuter parent newDoc aIds g2 dcs2 ix
      else
        match dedupScan dca ix newDoc g dcs aIds with
        | (g2, dcs2, some e) => (g2, dcs2, some e)
        | (g2, dcs2, none) => dedupOuter parent newDoc aIds g2 dcs2 ix

/-- Models `Graph.deduplicate_coauthors`.  The scanned id set is
`self.authors[parent.parent_id]` — the adjacency entry of the parent's own
parent id, a `defaultdict` read that inserts an empty entry when absent. -/
def deduplicateCoauthors (g : Graph) (parent : Author) (dcs : List Author)
    (newDoc : Bool) : Graph × List Author × Option PyErr :=
  let pr := adjDefault g.authors parent.parent_id
  dedupOuter parent newDoc (sortStrs pr.1) { g with authors := pr.2 } dcs
    dcs.length

/-- The list comprehension re-resolving a recorded coauthor-id set through the
registry; a missing id raises `KeyError`. -/
def resolveIds (g : Graph) : List Str → Except PyErr (List Author)
  | [] => .ok []
  | aId :: rest =>
    match dictLookup g.author_ids aId with
    | none => .error .keyError
    | some a =>
      match resolveIds g rest with
      | .error e => .error e
      | .ok l => .ok (a :: l)

/-- The list comprehension materialising placeholder authors for the
document's coauthor names, one random draw per name. -/
def buildCoauthors (pid : Str) : List Str → List Str → Except PyErr (List Author)
  | [], _ => .ok []
  | n :: ns, rands =>
    match mkAuthor n none (some pid) rands.headI with
    | .error e => .error e
    | .ok a =>
      match buildCoauthors pid ns rands.tail with
      | .error e => .error e
      | .ok l => .ok (a :: l)

/-- The tail of `Graph.add_document` after the coauthor list has been
built: the deduplication pass, the adjacency update of the parent's
coauthor set, and the recording of the document's resolved id set. -/
def addDocumentFinish (g : Graph) (doc : Document) (parent : Author)
    (dcs0 : List Author) (newDoc : Bool) : Graph × Option PyErr :=
  match deduplicateCoauthors g parent dcs0 newDoc with
  | (g1, _, some e) => (g1, some e)
  | (g1, dcs, none) =>
    let ids : List Str := (dcs.map (fun a => a.author_id)).dedup
    let pr := adjDefault g1.authors (some doc.parent_author)
    let g2 := { g1 with
      authors := adjInsert pr.2 (some doc.parent_author) (setUnion pr.1 ids) }
    let ids2 := setAdd ids doc.parent_author
    let g3 := { g2 with documents := docInsert g2.documents doc ids2 }
    (g3, none)

/-- Models `Graph.add_document`; `docRand` and `caRands` are the random draws
for the document id and the placeholder coauthor ids. -/
def addDocument (md5_11 : Str → Nat) (g : Graph) (din : DocInput)
    (docRand : Str) (caRands : List Str) : Graph × Option PyErr :=
  match mkDocument md5_11 docRand din with
  | .error e => (g, some e)
  | .ok doc =>
    if doc.authors.length ≤ 1 then (g, none)
    else
      match dictLookup g.author_ids doc.parent_author with
      | none => (g, some .keyError)
      | some parent =>
        let built : Except PyErr (List Author × Bool) :=
          match docLookup g.documents doc.fingerprint with
          | some ids => (resolveIds g (sortStrs ids)).map (fun l => (l, false))
          | none => (buildCoauthors doc.parent_author doc.authors caRands).map
              (fun l => (l, true))
        match built with
        | .error e => (g, some e)
        | .ok (dcs0, newDoc) => addDocumentFinish g doc parent dcs0 newDoc

/-- Helper: concatenation of the lists produced for each element. -/
def listFlat {α β : Type} (f : α → List β) : List α → List β
  | [] => []
  | a :: t => f a ++ listFlat f t

/-- Models `itertools.combinations(l, 2)`: one tuple per pair of positions,
in iteration order. -/
def combos2 : List Str → List (Str × Str)
  | [] => []
  | x :: t => t.map (fun y => (x, y)) ++ combos2 t

/-- The edge rows generated for one `documents` entry. -/
def edgeBlock (e : Document × List Str) : List (Str × Str × Str) :=
  (combos2 (sortStrs e.2)).map (fun p => (p.1, p.2, e.1.doc_id))

/-- The data rows of `Graph.edge_list` (header row omitted): one
`(id1, id2, doc_id)` row per unordered pair of each recorded document's
resolved coauthor ids, labeled with that document's `doc_id`.  The set of
coauthor ids is iterated in ascending order. -/
def edge_list (g : Graph) : List (Str × Str × Str) :=
  listFlat edgeBlock g.documents

/-- The deduplicating scan of `Graph.node_attributes`. -/
def nodeRowsAux : List (Str × Author) → List Str →
    List (Str × Str × Str × Option Str)
  | [], _ => []
  | (_, a) :: t, seen =>
    if a.author_id ∈ seen then nodeRowsAux t seen
    else (a.author_id, a.name, [a.filn.1, ' '] ++ a.filn.2, a.parent_id) ::
      nodeRowsAux t (a.author_id :: seen)

/-- The data rows of `Graph.node_attributes` (header row omitted): registry
values in insertion order, skipping records whose `author_id` was already
yielded. -/
def node_attributes (g : Graph) : List (Str × Str × Str × Option Str) :=
  nodeRowsAux g.author_ids []

/-- Graph states reachable from the empty graph by any sequence of
`add_author` / `add_document` calls, with arbitrary inputs and random
draws. -/
inductive Reachable (md5_11 : Str → Nat) : Graph → Prop where
  | empty : Reachable md5_11 Graph.empty
  | addA {g : Graph} (h : Reachable md5_11 g) (name : Str) (aid : Option Str)
      (rand : Str) : Reachable md5_11 (addAuthor g name aid rand).1
  | addD {g : Graph} (h : Reachable md5_11 g) (din : DocInput) (docRand : Str)
      (caRands : List Str) :
      Reachable md5_11 (addDocument md5_11 g din docRand caRands).1

/-! ### The request state machine of `src/requests.py` and the hop bounding
of `ScholarQueue` (`src/scholar_crawler/queue.py`)

Markup extraction is an external collaborator (spec section 6): a fetched
profile page is modelled by the structured fields the xpath layer produces,
and `Author.parse` is embedded from those fields on. -/

/-- One hexadecimal digit, upper case. -/
def hexDigit (n : Nat) : Char :=
  if n < 10 then Char.ofNat ('0'.toNat + n) else Char.ofNat ('A'.toNat + n - 10)

/-- Percent-encoding of one byte. -/
def pctByte (n : Nat) : Str := ['%', hexDigit (n / 16), hexDigit (n % 16)]

/-- UTF-8 encoding of one code point. -/
def utf8Bytes (n : Nat) : List Nat :=
  if n < 0x80 then [n]
  else if n < 0x800 then [0xC0 + n / 0x40, 0x80 + n % 0x40]
  else if n < 0x10000 then
    [0xE0 + n / 0x1000, 0x80 + (n / 0x40) % 0x40, 0x80 + n % 0x40]
  else
    [0xF0 + n / 0x40000, 0x80 + (n / 0x1000) % 0x40, 0x80 + (n / 0x40) % 0x40,
     0x80 + n % 0x40]

/-- The characters `urllib.parse.quote` never encodes. -/
def isAlwaysSafe (c : Char) : Bool :=
  isAsciiLetter c || ('0' ≤ c && c ≤ '9') || ['_', '.', '-', '~'].contains c

/-- Models `urllib.parse.quote(s, safe)`. -/
def pyQuote (safe : List Char) (s : Str) : Str :=
  listFlat
    (fun c =>
      if isAlwaysSafe c || safe.contains c then [c]
      else listFlat pctByte (utf8Bytes c.toNat))
    s

/-- Models `urllib.parse.quote_plus(s)` (the value encoder of `urlencode`). -/
def quotePlus (s : Str) : Str :=
  listFlat
    (fun c =>
      if c = ' ' then ['+']
      else if isAlwaysSafe c then [c]
      else listFlat pctByte (utf8Bytes c.toNat))
    s

/-- The `Author` request of `requests.py` (an author-profile crawl node),
with the constructor defaults of the source. -/
structure AuthorReq where
  name : Str := []
  profile_name : Str := []
  author_id : Str := []
  max_page : Nat := 2
  request_url : Str := []
  hop : Nat := 0
  full_title : Str := []
  institution : Str := []
  email_domain : Str := []
  interests : List Str := []
  deriving DecidableEq

/-- The `TitleSearch` request; `parent_author` is modelled as a snapshot of
the emitting author record (the source stores an object reference). -/
structure TitleSearchReq where
  request_url : Str
  hop : Nat
  max_author_page : Nat
  parent_author : AuthorReq
  deriving DecidableEq

/-- The `Author.BASE_URL` constant. -/
def authorBaseUrl : Str := "https://scholar.google.com/citations?".toList

/-- Models `urlencode(query_terms)` for the query dict built by
`Author.urls` (fixed insertion order, no `None` values to filter). -/
def profileQuery (author_id : Str) (cstart : Nat) : Str :=
  "user=".toList ++ quotePlus author_id ++ "&hl=en&cstart=".toList ++
  (toString cstart).toList ++
  "&pagesize=100&view_op=list_works&sortby=pubdate".toList

/-- Models the `Author.urls` property: no URL without a request url, one URL
when `max_page` is zero, otherwise one URL per page with `cstart = i * 100`. -/
def AuthorReq.urls (a : AuthorReq) : List Str :=
  if a.request_url = [] then []
  else if a.max_page = 0 then [authorBaseUrl ++ profileQuery a.author_id 0]
  else (List.range a.max_page).map
    (fun i => authorBaseUrl ++ profileQuery a.author_id (i * 100))

/-- The structured fields the external markup extractor produces from one
fetched profile page: the `user` id parsed from the page URL, the profile
header fields, and the raw text chunks of each publication-title cell. -/
structure ProfilePage where
  user_id : Str := []
  profile_name : Str := []
  full_title : Str := []
  institution : Str := []
  email_domain : Str := []
  interests : List Str := []
  title_fragments : List (List Str) := []
  deriving DecidableEq

/-- Python `s.strip(chars)`. -/
def pyStrip (chars : List Char) (s : Str) : Str :=
  ((s.dropWhile (fun c => chars.contains c)).reverse.dropWhile
    (fun c => chars.contains c)).reverse

/-- Python string split on every character satisfying `bad`. -/
def pySplitP (bad : Char → Bool) : Str → List Str
  | [] => [[]]
  | c :: cs =>
    match pySplitP bad cs with
    | [] => [[]]
    | h :: t => if bad c then [] :: h :: t else (c :: h) :: t

/-- The character class kept by the `re.split` pattern of `Author.parse`. -/
def fragKeep (c : Char) : Bool :=
  isAsciiLetter c || ('0' ≤ c && c ≤ '9') ||
  ([';', ':', '"', ' ', '[', ']', ',', '.', '-']
    ++ [Char.ofNat 123, Char.ofNat 125]).contains c

/-- Python whitespace, as stripped by a bare `str.strip()`. -/
def pyWs : List Char := [' ', '\t', '\n', '\r', Char.ofNat 11, Char.ofNat 12]

/-- The title-fragment pipeline of `Author.parse`: strip decorations from
each chunk, split on runs of disallowed characters (splitting on each such
character singly yields the same pieces plus empties, which the length
filter discards), and keep stripped pieces longer than two characters. -/
def processFragments (raw : List (List Str)) : List (List Str) :=
  (raw.map (fun tf => tf.map (pyStrip [' ', '-', ' ', '…']))).map
    (fun tf =>
      listFlat
        (fun frag =>
          (pySplitP (fun c => !fragKeep c) frag).filterMap (fun f =>
            let g := pyStrip pyWs f
            if g.length > 2 then some g else none))
        tf)

/-- The `TitleSearch.BASE_URL` constant. -/
def titleBaseUrl : Str :=
  "https://scholar.google.com/scholar?as_vis=1&as_sdt=1,5&as_q=&as_occt=title&as_epq=".toList

/-- The `safe` character set of the quoting in `from_search_terms`. -/
def tsSafe : List Char :=
  [' ', '(', ')', '[', ']', '<', '>', Char.ofNat 123, Char.ofNat 125,
   '!', '^', '*', '~', '|']

/-- Models `TitleSearch.from_search_terms`. -/
def fromSearchTerms (terms : List Str) (hop : Nat) (parent : AuthorReq) :
    TitleSearchReq :=
  let ts := terms.map
    (fun t => (pyQuote tsSafe t).map (fun c => if c = ' ' then '+' else c))
  let ts2 := ts.map (fun t => '"' :: (t ++ ['"']))
  { request_url := titleBaseUrl ++ pyJoin '+' ts2, hop := hop,
    max_author_page := 3, parent_author := parent }

/-- Models `Author.parse` on the structured fields of one fetched page:
harvests the profile metadata into the request record and, when `max_page`
is non-zero, emits one `TitleSearch` at `hop + 1` per processed title
fragment. -/
def AuthorReq.parse (a : AuthorReq) (pg : ProfilePage) :
    AuthorReq × List TitleSearchReq :=
  let frs := processFragments pg.title_fragments
  let a2 := { a with profile_name := pg.profile_name, author_id := pg.user_id,
                     full_title := pg.full_title, institution := pg.institution,
                     email_domain := pg.email_domain, interests := pg.interests }
  if a2.max_page ≠ 0 then (a2, frs.map (fun t => fromSearchTerms t (a2.hop + 1) a2))
  else (a2, [])

/-- Models `ScholarQueue.process_response` on an `Author` request: when the
hop budget is exhausted (`hop >= max_hops`) the request's `max_page` is
forced to zero before parsing. -/
def processAuthorResponse (maxHops : Nat) (a : AuthorReq) (pg : ProfilePage) :
    AuthorReq × List TitleSearchReq :=
  let a2 := if a.hop ≥ maxHops then { a with max_page := 0 } else a
  AuthorReq.parse a2 pg

/-- Models one full `get_next` / `process_response` round of
`ScholarQueue.crawl` for an `Author` request popped from the frontier: the
URL list is computed once from the request as popped, one page is fetched
per URL, and each response is processed in order.  Returns the final
mutated request and the follow-up `TitleSearch` requests appended to the
frontier, in order. -/
def runAuthorRequest (maxHops : Nat) (req : AuthorReq) :
    List ProfilePage → AuthorReq × List TitleSearchReq
  | [] => (req, [])
  | pg :: rest =>
    let r := processAuthorResponse maxHops req pg
    let k := runAuthorRequest maxHops r.1 rest
    (k.1, r.2 ++ k.2)

/-- The number of profile-page fetches `get_next` performs for a popped
`Author` request: one per URL of the list computed at pop time. -/
def fetchCount (req : AuthorReq) : Nat := req.urls.length

/-! ### Helper lemmas -/

/-- Whether the constructor split of the stored name yields a non-empty part
before the last space. -/
def splitsOk (a : Author) : Bool :=
  match rsplitSpace (pyLower a.name) with
  | some (_ :: _, _) => true
  | _ => false

/-- Facts holding for every author record the program constructs: the stored
display name is fixed by `shave_marks_latin`, it splits with a non-empty part
before its last space, and the id is non-empty. -/
def Wf (a : Author) : Prop :=
  shave_marks_latin a.name = a.name ∧ splitsOk a = true ∧ a.author_id ≠ []

instance (a : Author) : Decidable (Wf a) :=
  inferInstanceAs (Decidable (shave_marks_latin a.name = a.name ∧
    splitsOk a = true ∧ a.author_id ≠ []))

/-! ### Concrete evaluation material -/

/-- A concrete, injective stand-in for the `md5_11` parameter, used to
evaluate closed statements. -/
def hashModel : Str → Nat := fun s => s.foldl (fun n c => n * 1114112 + c.toNat + 1) 1

/-- The scenario graph after registering the root author Jane Doe with the
externally issued id `JD01`. -/
def gJane : Graph :=
  (addAuthor Graph.empty "Jane Doe".toList (some "JD01".toList) "R0".toList).1

/-- The scenario document: title `X` by Jane Doe and John Q Reed, discovered
from Jane Doe's profile (`parent_author = JD01`). -/
def dinX : DocInput :=
  { title := "X".toList, parent_author := "JD01".toList,
    authors := ["Jane Doe".toList, "John Q Reed".toList] }

/-- The graph after ingesting document `X` once. -/
def gX : Graph := (addDocument hashModel gJane dinX "D1".toList ["RA".toList, "RB".toList]).1

/-- A second scenario document: title `Y` by Jane Doe and J Reed, also
discovered from Jane Doe's profile. -/
def dinY : DocInput :=
  { title := "Y".toList, parent_author := "JD01".toList,
    authors := ["Jane Doe".toList, "J Reed".toList] }

/-- The graph after ingesting document `X` and then document `Y`. -/
def gY : Graph := (addDocument hashModel gX dinY "D2".toList ["RC".toList, "RD".toList]).1

/-- Whether a string has internal whitespace: whitespace remains after
stripping leading and trailing whitespace. -/
def hasInternalWs (s : Str) : Bool := (pyStrip pyWs s).any (fun c => pyWs.contains c)

/-- Concrete author with a parent id, for the merge idempotence claim. -/
def aC6 : Author := ⟨"John Doe".toList, "X1".toList, some "P1".toList, ('j', "doe".toList)⟩

/-- Concrete author pair with equal-length, distinct names and equal match
keys, for the merge commutativity claim. -/
def aC7 : Author := ⟨"Jon Doe".toList, "A1".toList, none, ('j', "doe".toList)⟩

/-- Second author of the commutativity pair. -/
def bC7 : Author := ⟨"Jan Doe".toList, "A2".toList, none, ('j', "doe".toList)⟩

/-- Concrete author with an externally issued id beginning with `'!'`,
a character below the placeholder marker `'#'`. -/
def aC4 : Author := ⟨"John Doe".toList, "!X".toList, none, ('j', "doe".toList)⟩

/-- Concrete author with a placeholder id. -/
def bC4 : Author := ⟨"John Doe".toList, "#ABCDEFG".toList, none, ('j', "doe".toList)⟩

/-- Concrete input pair for the C4 witness. -/
def aC4w : Author :=
  ⟨"Jane Ann Doe".toList, "JD01".toList, some "P1".toList, ('j', "doe".toList)⟩

/-- Second element of the C4 witness pair (placeholder id). -/
def bC4w : Author :=
  ⟨"J Doe".toList, "#AB".toList, some "P2".toList, ('j', "doe".toList)⟩

/-- Concrete input for the C6 witness. -/
def aC6w : Author :=
  ⟨"John Doe".toList, "X1".toList, some "P1".toList, ('j', "doe".toList)⟩

/-- Second input for the C6 witness (parent set `None`, so the repeated
merge is a genuine no-op). -/
def bC6w : Author :=
  ⟨"John B Doe".toList, "X2".toList, none, ('j', "doe".toList)⟩

/-- Concrete hop-exhausted author request, popped from the frontier with
`max_page = 2` and `hop = 1` under `max_hops = 1`. -/
def reqC9 : AuthorReq :=
  { name := "Jane Doe".toList, author_id := "JD01".toList, max_page := 2,
    request_url := "u".toList, hop := 1 }

/-- First fetched page for the C9 witness. -/
def pgC9a : ProfilePage :=
  { user_id := "JD01".toList, profile_name := "Jane Doe".toList,
    institution := "U1".toList }

/-- Second fetched page for the C9 witness. -/
def pgC9b : ProfilePage :=
  { user_id := "JD01".toList, profile_name := "Jane B Doe".toList,
    institution := "U2".toList, email_domain := "@u2.edu".toList,
    interests := ["graphs".toList] }

/-- The document record produced by ingesting `dinX` with random draw `D1`. -/
def docXw : Document :=
  { title := "X".toList, parent_author := "JD01".toList,
    authors := ["Jane Doe".toList, "John Q Reed".toList],
    publication_date := [], pages := [], publisher := [], journal := [],
    volume := [], issue := [], conference := [], book := [],
    doc_id := "@D1".toList, fingerprint := hashModel "X".toList }

/-- The resolved coauthor id set recorded for `docXw` in `gX`. -/
def sXw : List Str := ["#RB".toList, "JD01".toList]

/-! ### The match key versus the shaved display name (C10)

`Author.__init__` computes `filn` from `self.name.lower()` where `self.name`
is still the RAW input name (the shave happens on the same line, left to
right, but `filn` uses the raw lowercase split), while the stored display
name is `shave_marks_latin(name)`.  The development below shows that on the
ASCII-or-combining-mark alphabet the shave is idempotent, commutes with
lower-casing, and eliminates every letter-mark adjacency, so an author built
from a marked name and one built from its shaved name share a display name
but can never share a match key. -/

/-- An ASCII Latin letter immediately followed by a combining mark occurs in
the string: the configuration `shave_marks_latin` strips. -/
def hasLM : Str → Bool
  | a :: b :: r => (isAsciiLetter a && isCombining b) || hasLM (b :: r)
  | _ => false

/-- The latin-base state of the `shaveCore` scan after consuming a string. -/
def endState : Bool → Str → Bool
  | lb, [] => lb
  | lb, c :: cs => endState (if isCombining c then lb else isAsciiLetter c) cs

/-- A concrete NFD-form name: `i` carries a combining acute in the surname. -/
def nameC10 : Str := "Jose Garci\u0301a".toList

/-- The author built from the raw marked name with random draw `RA`. -/
def aC10 : Author :=
  ⟨"Jose Garcia".toList, "#RA".toList, none, ('j', "garci\u0301a".toList)⟩

/-- The author built from the shaved name with random draw `RB`. -/
def bC10 : Author :=
  ⟨"Jose Garcia".toList, "#RB".toList, none, ('j', "garcia".toList)⟩

theorem splitsOk_iff {a : Author} :
    splitsOk a = true ↔ ∃ c f l, rsplitSpace (pyLower a.name) = some (c :: f, l) := by
  unfold splitsOk
  rcases h : rsplitSpace (pyLower a.name) with _ | ⟨u, v⟩
  · simp
  · rcases u with _ | ⟨c, f⟩ <;> simp_all

theorem mkAuthor_of_rsplit {n : Str} {c : Char} {f l : Str}
    (h : rsplitSpace (pyLower n) = some (c :: f, l)) (i : Option Str)
    (p : Option Str) (r : Str) :
    mkAuthor n i p r = .ok ⟨shave_marks_latin n, makeId i r, p, (c, l)⟩ := by
  simp [mkAuthor, h]

theorem pyMax_cases (a b : Str) : pyMax a b = a ∨ pyMax a b = b := by
  unfold pyMax; split <;> simp

theorem makeId_of_ne_nil {s : Str} (h : s ≠ []) (r : Str) :
    makeId (some s) r = s := by
  simp [makeId, h]

/-- The explicit reconciled record returned by a merge of two well-formed
authors with equal match keys. -/
theorem merge_spec {a b : Author} (ha : Wf a) (hb : Wf b)
    (hf : a.filn = b.filn) (r : Str) :
    ∃ m, a.merge b r = .ok m ∧
      m.name = (if b.name.length > a.name.length then b.name else a.name) ∧
      m.author_id = pyMax a.author_id b.author_id ∧
      m.parent_id = (match a.parent_id, b.parent_id with
        | some pa, some pb =>
          some (pyJoin '|' (sortStrs (pySplit '|' pa ++ pySplit '|' pb)))
        | _, _ => none) ∧
      Wf m ∧
      (∀ c f l, rsplitSpace (pyLower m.name) = some (c :: f, l) →
        m.filn = (c, l)) := by
  obtain ⟨ha1, ha2, ha3⟩ := ha
  obtain ⟨hb1, hb2, hb3⟩ := hb
  have hid : pyMax a.author_id b.author_id ≠ [] := by
    rcases pyMax_cases a.author_id b.author_id with h | h <;> rw [h] <;> assumption
  by_cases hlen : b.name.length > a.name.length
  · obtain ⟨c, f, l, hsp⟩ := splitsOk_iff.mp hb2
    refine ⟨⟨shave_marks_latin b.name, pyMax a.author_id b.author_id, _, (c, l)⟩,
      ?_, ?_, rfl, rfl, ?_, ?_⟩
    · unfold Author.merge
      rw [if_neg (by simp [hf]), if_pos hlen,
        mkAuthor_of_rsplit hsp, makeId_of_ne_nil hid]
    · simpa [hlen] using hb1
    · refine ⟨by simp [hb1], ?_, hid⟩
      simp only [splitsOk, hb1, hsp]
    · intro c' f' l' hsp2
      simp only [hb1] at hsp2
      rw [hsp] at hsp2
      obtain ⟨h1, h2⟩ := Prod.mk.inj (Option.some.inj hsp2)
      obtain ⟨h3, -⟩ := List.cons.inj h1
      simp [h3, h2]
  · obtain ⟨c, f, l, hsp⟩ := splitsOk_iff.mp ha2
    refine ⟨⟨shave_marks_latin a.name, pyMax a.author_id b.author_id, _, (c, l)⟩,
      ?_, ?_, rfl, rfl, ?_, ?_⟩
    · unfold Author.merge
      rw [if_neg (by simp [hf]), if_neg hlen,
        mkAuthor_of_rsplit hsp, makeId_of_ne_nil hid]
    · simpa [hlen] using ha1
    · refine ⟨by simp [ha1], ?_, hid⟩
      simp only [splitsOk, ha1, hsp]
    · intro c' f' l' hsp2
      simp only [ha1] at hsp2
      rw [hsp] at hsp2
      obtain ⟨h1, h2⟩ := Prod.mk.inj (Option.some.inj hsp2)
      obtain ⟨h3, -⟩ := List.cons.inj h1
      simp [h3, h2]

theorem pySplit_ne_nil (sep : Char) : ∀ s : Str, pySplit sep s ≠ [] := by
  intro s
  induction s with
  | nil => simp [pySplit]
  | cons c cs ih =>
    by_cases hc : c = sep
    · simp [pySplit, hc]
    · rcases h : pySplit sep cs with _ | ⟨h1, t⟩
      · exact absurd h ih
      · simp [pySplit, hc, h]

theorem sep_not_mem_pySplit (sep : Char) :
    ∀ s : Str, ∀ p ∈ pySplit sep s, sep ∉ p := by
  intro s
  induction s with
  | nil => intro p hp; simp [pySplit] at hp; simp [hp]
  | cons c cs ih =>
    intro p hp
    by_cases hc : c = sep
    · simp only [pySplit, if_pos hc, List.mem_cons] at hp
      rcases hp with hp | hp
      · simp [hp]
      · exact ih p hp
    · rcases h : pySplit sep cs with _ | ⟨h1, t⟩
      · exact absurd h (pySplit_ne_nil sep cs)
      · simp only [pySplit, if_neg hc, h, List.mem_cons] at hp
        rcases hp with hp | hp
        · subst hp
          intro hmem
          rcases List.mem_cons.mp hmem with h' | h'
          · exact hc h'.symm
          · exact ih h1 (h ▸ List.mem_cons_self h1 t) h'
        · exact ih p (h ▸ List.mem_cons_of_mem h1 hp)

theorem pySplit_of_not_mem {sep : Char} :
    ∀ {s : Str}, sep ∉ s → pySplit sep s = [s] := by
  intro s
  induction s with
  | nil => intro _; simp [pySplit]
  | cons c cs ih =>
    intro h
    have hc : c ≠ sep := fun he => h (he ▸ List.mem_cons_self c cs)
    have ih2 := ih (fun hm => h (List.mem_cons_of_mem c hm))
    simp [pySplit, hc, ih2]

theorem pySplit_append_sep {sep : Char} :
    ∀ {x : Str}, sep ∉ x → ∀ rest : Str,
      pySplit sep (x ++ sep :: rest) = x :: pySplit sep rest := by
  intro x
  induction x with
  | nil => intro _ rest; simp [pySplit]
  | cons c x' ih =>
    intro hx rest
    have hc : c ≠ sep := fun he => hx (he ▸ List.mem_cons_self c x')
    have ih2 := ih (fun hm => hx (List.mem_cons_of_mem c hm)) rest
    show pySplit sep (c :: (x' ++ sep :: rest)) = (c :: x') :: pySplit sep rest
    simp [pySplit, hc, ih2]

theorem pySplit_pyJoin {sep : Char} :
    ∀ {l : List Str}, l ≠ [] → (∀ p ∈ l, sep ∉ p) →
      pySplit sep (pyJoin sep l) = l
  | [], h, _ => absurd rfl h
  | [x], _, hp => by
    simp only [pyJoin]
    exact pySplit_of_not_mem (hp x (by simp))
  | x :: y :: t, _, hp => by
    have ih := pySplit_pyJoin (l := y :: t) (by simp)
      (fun p hmem => hp p (List.mem_cons_of_mem x hmem))
    show pySplit sep (x ++ sep :: pyJoin sep (y :: t)) = x :: y :: t
    rw [pySplit_append_sep (hp x (by simp)), ih]

theorem sortStrs_perm (l : List Str) : List.Perm (sortStrs l) l :=
  List.perm_insertionSort (· ≤ ·) l

theorem sortStrs_sorted (l : List Str) : List.Sorted (· ≤ ·) (sortStrs l) :=
  List.sorted_insertionSort (· ≤ ·) l

theorem sortStrs_append_comm (x y : List Str) :
    sortStrs (x ++ y) = sortStrs (y ++ x) := by
  refine List.eq_of_perm_of_sorted ?_ (sortStrs_sorted _) (sortStrs_sorted _)
  exact ((sortStrs_perm _).trans List.perm_append_comm).trans (sortStrs_perm _).symm

theorem sortStrs_ne_nil {l : List Str} (h : l ≠ []) : sortStrs l ≠ [] := by
  intro he
  have hp := sortStrs_perm l
  rw [he] at hp
  exact h hp.symm.eq_nil

theorem mem_sortStrs {l : List Str} {p : Str} : p ∈ sortStrs l ↔ p ∈ l :=
  (sortStrs_perm l).mem_iff

theorem toFinset_sortStrs (l : List Str) : (sortStrs l).toFinset = l.toFinset := by
  apply Finset.ext
  intro s
  simp [List.mem_toFinset, mem_sortStrs]

/-- Round trip for the merged parent-id string: splitting the joined sorted
pieces recovers them, and their set is the union of the two parsed sets. -/
theorem mergedPid_toFinset (pa pb : Str) :
    (pySplit '|' (pyJoin '|' (sortStrs (pySplit '|' pa ++ pySplit '|' pb)))).toFinset
      = (pySplit '|' pa).toFinset ∪ (pySplit '|' pb).toFinset := by
  have hne : sortStrs (pySplit '|' pa ++ pySplit '|' pb) ≠ [] := by
    apply sortStrs_ne_nil
    intro h
    exact pySplit_ne_nil '|' pa (List.append_eq_nil.mp h).1
  have hfree : ∀ p ∈ sortStrs (pySplit '|' pa ++ pySplit '|' pb), '|' ∉ p := by
    intro p hp
    rcases List.mem_append.mp (mem_sortStrs.mp hp) with h | h
    · exact sep_not_mem_pySplit '|' pa p h
    · exact sep_not_mem_pySplit '|' pb p h
  rw [pySplit_pyJoin hne hfree, toFinset_sortStrs, List.toFinset_append]

theorem strLt_iff_lt {a b : Str} : strLt a b ↔ a < b := Iff.rfl

theorem pyMax_self (a : Str) : pyMax a a = a := by
  unfold pyMax; split <;> rfl

theorem pyMax_comm (a b : Str) : pyMax a b = pyMax b a := by
  unfold pyMax
  rcases lt_trichotomy a b with h | h | h
  · rw [if_pos (strLt_iff_lt.mpr h),
      if_neg (fun hba => lt_asymm h (strLt_iff_lt.mp hba))]
  · subst h; split <;> rfl
  · rw [if_neg (fun hab => lt_asymm h (strLt_iff_lt.mp hab)),
      if_pos (strLt_iff_lt.mpr h)]

theorem strLt_of_head_lt {c d : Char} (h : c < d) (x y : Str) :
    strLt (c :: x) (d :: y) := List.Lex.rel h

theorem pyMax_of_head_lt {c d : Char} (h : c < d) (x y : Str) :
    pyMax (c :: x) (d :: y) = d :: y := by
  unfold pyMax
  rw [if_pos (strLt_of_head_lt h x y)]

theorem rsplitSpace_eq_none {s : Str} : rsplitSpace s = none ↔ ' ' ∉ s := by
  induction s with
  | nil => simp [rsplitSpace]
  | cons c cs ih =>
    rcases h : rsplitSpace cs with _ | ⟨u, v⟩
    · have hns : ' ' ∉ cs := ih.mp h
      by_cases hc : c = ' '
      · subst hc
        simp [rsplitSpace, h]
      · simp only [rsplitSpace, h, if_neg hc]
        constructor
        · intro _ hmem
          rcases List.mem_cons.mp hmem with h' | h'
          · exact hc h'.symm
          · exact hns h'
        · intro _; trivial
    · simp only [rsplitSpace, h]
      constructor
      · intro hx; exact Option.noConfusion hx
      · intro hx
        exfalso
        have hns : ' ' ∉ cs := fun hm => hx (List.mem_cons_of_mem c hm)
        exact Option.noConfusion (h.symm.trans (ih.mpr hns))

theorem rsplitSpace_eq_some {s u v : Str} :
    rsplitSpace s = some (u, v) ↔ s = u ++ ' ' :: v ∧ ' ' ∉ v := by
  induction s generalizing u v with
  | nil =>
    simp only [rsplitSpace]
    constructor
    · intro hx; exact Option.noConfusion hx
    · rintro ⟨he, -⟩
      rcases u with _ | ⟨a, u0⟩ <;> simp at he
  | cons c cs ih =>
    rcases h : rsplitSpace cs with _ | ⟨u', v'⟩
    · have hns : ' ' ∉ cs := rsplitSpace_eq_none.mp h
      by_cases hc : c = ' '
      · subst hc
        simp only [rsplitSpace, h, if_pos rfl]
        constructor
        · intro hx
          obtain ⟨h1, h2⟩ := Prod.mk.inj (Option.some.inj hx)
          subst h1; subst h2
          exact ⟨rfl, hns⟩
        · rintro ⟨heq, hv⟩
          rcases u with _ | ⟨a, u0⟩
          · simp only [List.nil_append] at heq
            obtain ⟨-, h2⟩ := List.cons.inj heq
            subst h2
            rfl
          · obtain ⟨-, h2⟩ := List.cons.inj heq
            have : ' ' ∈ cs := by
              rw [h2]; exact List.mem_append.mpr (Or.inr (List.mem_cons_self _ _))
            exact absurd this hns
      · simp only [rsplitSpace, h, if_neg hc]
        constructor
        · intro hx; exact Option.noConfusion hx
        · rintro ⟨heq, hv⟩
          rcases u with _ | ⟨a, u0⟩
          · obtain ⟨h1, -⟩ := List.cons.inj heq
            exact absurd h1 hc
          · obtain ⟨h1, h2⟩ := List.cons.inj heq
            have : ' ' ∈ cs := by
              rw [h2]; exact List.mem_append.mpr (Or.inr (List.mem_cons_self _ _))
            exact absurd this hns
    · have hcs := (ih (u := u') (v := v')).mp h
      simp only [rsplitSpace, h]
      constructor
      · intro hx
        obtain ⟨h1, h2⟩ := Prod.mk.inj (Option.some.inj hx)
        subst h1; subst h2
        refine ⟨?_, hcs.2⟩
        rw [List.cons_append, hcs.1]
      · rintro ⟨heq, hv⟩
        rcases u with _ | ⟨a, u0⟩
        · simp only [List.nil_append] at heq
          obtain ⟨h1, h2⟩ := List.cons.inj heq
          subst h2
          have : rsplitSpace cs = none := rsplitSpace_eq_none.mpr hv
          exact Option.noConfusion (h.symm.trans this)
        · obtain ⟨h1, h2⟩ := List.cons.inj heq
          have h3 := (ih (u := u0) (v := v)).mpr ⟨h2, hv⟩
          obtain ⟨h4, h5⟩ := Prod.mk.inj (Option.some.inj (h.symm.trans h3))
          subst h4; subst h5; subst h1
          rfl

theorem pyLowerChar_eq_space_iff {c : Char} : pyLowerChar c = ' ' ↔ c = ' ' := by
  unfold pyLowerChar
  rcases h : lowerTable.find? (fun e => e.1 = c) with _ | e
  · simp [h]
  · have hmem := List.mem_of_find?_eq_some h
    have hpred := List.find?_some h
    simp only [decide_eq_true_eq] at hpred
    simp only [h, Option.map_some', Option.getD_some]
    constructor
    · intro h2
      have hall : ∀ x ∈ lowerTable, x.2 ≠ ' ' := by decide
      exact absurd h2 (hall e hmem)
    · intro h2
      have hall : ∀ x ∈ lowerTable, x.1 ≠ ' ' := by decide
      exact absurd (hpred.trans h2) (hall e hmem)

theorem mem_space_pyLower {s : Str} : ' ' ∈ pyLower s ↔ ' ' ∈ s := by
  induction s with
  | nil => simp [pyLower]
  | cons c cs ih =>
    simp only [pyLower, List.map_cons, List.mem_cons]
    constructor
    · rintro (h | h)
      · exact Or.inl (pyLowerChar_eq_space_iff.mp h.symm).symm
      · exact Or.inr (ih.mp h)
    · rintro (h | h)
      · exact Or.inl (pyLowerChar_eq_space_iff.mpr h.symm).symm
      · exact Or.inr (ih.mpr h)

/-! ### Claim theorems -/

/-- C5 (code bug): the final fallback branch of `Document._make_hash` is not
total — on a document whose venue metadata, title and book are all empty the
source applies `int(h[:11], 16)` to the md5 object itself (the call to
`.hexdigest()` is missing), raising `TypeError`, so document construction
crashes instead of producing the claimed fallback fingerprint. -/
theorem c5_fingerprint_fallback_crash :
    ∀ (md5_11 : Str → Nat) (rand : Str),
      makeHash md5_11
        { authors := ["Jane Doe".toList, "John Q Reed".toList],
          parent_author := "JD01".toList } = .error .typeError ∧
      mkDocument md5_11 rand
        { authors := ["Jane Doe".toList, "John Q Reed".toList],
          parent_author := "JD01".toList } = .error .typeError := by
  intro md5_11 rand
  exact ⟨rfl, rfl⟩

/-- C2 (code bug): ingesting the same document twice does not accumulate —
the first `add_document` never registers the new placeholder coauthor in
`author_ids`, so the second call, which re-resolves the recorded coauthor-id
set through the registry, raises `KeyError`; moreover after the first call
the graph exposes only one author node, not two. -/
theorem c2_duplicate_document_crash :
    (addDocument hashModel gJane dinX "D1".toList ["RA".toList, "RB".toList]).2 = none ∧
    (addDocument hashModel gX dinX "D2".toList ["RC".toList, "RD".toList]).2
      = some .keyError ∧
    (addDocument hashModel gX dinX "D2".toList ["RC".toList, "RD".toList]).1 = gX ∧
    (node_attributes gX).length = 1 ∧
    docLookup gX.documents (hashModel "X".toList)
      = some ["#RB".toList, "JD01".toList] ∧
    dictLookup gX.author_ids "#RB".toList = none := by
  refine ⟨rfl, by decide, by decide, rfl, by decide, rfl⟩

/-- C3 (code bug): the deduplication pass never merges a candidate with the
parent's recorded coauthors — it scans `self.authors[parent.parent_id]`
(empty for a root parent) instead of `self.authors[parent.author_id]`, so
the later candidate J Reed, whose match key equals that of the recorded
neighbor John Q Reed (placeholder `#RB`), is kept as a distinct fresh
placeholder `#RC` instead of being merged. -/
theorem c3_merge_trigger_never_fires :
    (addDocument hashModel gX dinY "D2".toList ["RC".toList, "RD".toList]).2 = none ∧
    ((mkAuthor "John Q Reed".toList none (some "JD01".toList) "RB".toList).toOption.map
        Author.filn
      = (mkAuthor "J Reed".toList none (some "JD01".toList) "RC".toList).toOption.map
        Author.filn) ∧
    adjLookup gY.authors (some "JD01".toList)
      = some ["#RB".toList, "#RC".toList] ∧
    docLookup gY.documents (hashModel "Y".toList)
      = some ["#RC".toList, "JD01".toList] ∧
    adjLookup gX.authors (some "JD01".toList) = some ["#RB".toList] := by
  refine ⟨by decide, by decide, by decide, by decide, by decide⟩

/-- C6 counterexample: `merge(a, a)` does not leave `a` unchanged — with
parent id `P1` the merged record's parent list is the duplicated `P1|P1`. -/
theorem c6_counterexample :
    Author.merge aC6 aC6 [] ≠ .ok aC6 ∧
    (Author.merge aC6 aC6 []).toOption.map Author.parent_id
      = some (some "P1|P1".toList) := by
  refine ⟨by decide, by decide⟩

/-- C7 counterexample: with equal-length distinct names (`Jon Doe` and
`Jan Doe`, same match key) each merge keeps its first argument's name, so
the two argument orders produce different reconciled records. -/
theorem c7_counterexample :
    Author.merge aC7 bC7 [] ≠ Author.merge bC7 aC7 [] ∧
    (Author.merge aC7 bC7 []).toOption.map Author.name = some "Jon Doe".toList ∧
    (Author.merge bC7 aC7 []).toOption.map Author.name = some "Jan Doe".toList := by
  refine ⟨by decide, by decide, by decide⟩

/-- C4 counterexample: an externally issued id whose first character orders
below `'#'` (here `!X`) loses the `max` comparison against a placeholder id,
so the placeholder survives the merge as the canonical id. -/
theorem c4_counterexample :
    aC4.filn = bC4.filn ∧
    aC4.author_id.head? = some '!' ∧
    bC4.author_id.head? = some '#' ∧
    (Author.merge aC4 bC4 []).toOption.map Author.author_id
      = some "#ABCDEFG".toList ∧
    (Author.merge bC4 aC4 []).toOption.map Author.author_id
      = some "#ABCDEFG".toList := by
  refine ⟨by decide, by decide, by decide, by decide, by decide⟩

/-- C8 counterexample: the constructor does not fail exactly on names
without internal whitespace — `John\tDoe` has internal whitespace yet fails
(`rsplit(' ', 1)` only splits on the space character), while `John ` has no
internal whitespace yet succeeds (with an empty surname). -/
theorem c8_counterexample :
    hasInternalWs "John\tDoe".toList = true ∧
    mkAuthor "John\tDoe".toList (some "X1".toList) none "R".toList
      = .error .valueError ∧
    hasInternalWs "John ".toList = false ∧
    (mkAuthor "John ".toList (some "X1".toList) none "R".toList).toOption.isSome
      = true := by
  refine ⟨by decide, by decide, by decide, by decide⟩

/-- C4 (amended): a merge of two well-formed authors with equal match keys
reconciles to the longer name (ties keep the first argument's name), the
lexicographically maximal id — so a real id beginning with a character above
the placeholder marker `'#'` (in particular any alphanumeric-initial id)
always beats a placeholder — and the parent set is the union of the two
parsed parent-id lists unless either side is `None`, in which case it is
`None`. -/
theorem c4_reconciled_state_amended (a b : Author) (ha : Wf a) (hb : Wf b)
    (hf : a.filn = b.filn) (r : Str) :
    ∃ m, a.merge b r = .ok m ∧
      m.name = (if b.name.length > a.name.length then b.name else a.name) ∧
      m.author_id = pyMax a.author_id b.author_id ∧
      (∀ t c t2, a.author_id = '#' :: t → b.author_id = c :: t2 → '#' < c →
        m.author_id = b.author_id) ∧
      (∀ t c t2, b.author_id = '#' :: t → a.author_id = c :: t2 → '#' < c →
        m.author_id = a.author_id) ∧
      ((a.parent_id = none ∨ b.parent_id = none) → m.parent_id = none) ∧
      (∀ pa pb, a.parent_id = some pa → b.parent_id = some pb →
        ∃ q, m.parent_id = some q ∧
          (pySplit '|' q).toFinset
            = (pySplit '|' pa).toFinset ∪ (pySplit '|' pb).toFinset) := by
  obtain ⟨m, hm, hname, hid, hpid, hwf, hfiln⟩ := merge_spec ha hb hf r
  refine ⟨m, hm, hname, hid, ?_, ?_, ?_, ?_⟩
  · intro t c t2 hat hbt hlt
    rw [hid, hat, hbt, pyMax_of_head_lt hlt, ← hbt]
  · intro t c t2 hbt hat hlt
    rw [hid, hat, hbt, pyMax_comm, pyMax_of_head_lt hlt, ← hat]
  · intro hnone
    rcases ha2 : a.parent_id with _ | pa
    · rw [hpid, ha2]
    · rcases hb2 : b.parent_id with _ | pb
      · rw [hpid, ha2, hb2]
      · exfalso
        rcases hnone with h | h
        · exact Option.noConfusion (ha2.symm.trans h)
        · exact Option.noConfusion (hb2.symm.trans h)
  · intro pa pb hpa hpb
    rw [hpid, hpa, hpb]
    exact ⟨_, rfl, mergedPid_toFinset pa pb⟩

/-- Witness for the amended C4 theorem at a concrete input. -/
theorem c4_reconciled_state_amended_witness :
    ∃ m, Author.merge aC4w bC4w [] = .ok m ∧
      m.name = (if bC4w.name.length > aC4w.name.length then bC4w.name
        else aC4w.name) ∧
      m.author_id = pyMax aC4w.author_id bC4w.author_id ∧
      (∀ t c t2, aC4w.author_id = '#' :: t → bC4w.author_id = c :: t2 →
        '#' < c → m.author_id = bC4w.author_id) ∧
      (∀ t c t2, bC4w.author_id = '#' :: t → aC4w.author_id = c :: t2 →
        '#' < c → m.author_id = aC4w.author_id) ∧
      ((aC4w.parent_id = none ∨ bC4w.parent_id = none) → m.parent_id = none) ∧
      (∀ pa pb, aC4w.parent_id = some pa → bC4w.parent_id = some pb →
        ∃ q, m.parent_id = some q ∧
          (pySplit '|' q).toFinset
            = (pySplit '|' pa).toFinset ∪ (pySplit '|' pb).toFinset) :=
  c4_reconciled_state_amended aC4w bC4w (by decide) (by decide) (by decide) []

/-- C6 (amended): a self-merge of a well-formed author preserves the name,
the id and the parent-id set, but a non-`None` parent list is replaced by
its sorted self-concatenation (each parent id is duplicated) rather than
left unchanged; and after one merge of `a` and `b`, re-merging the (aliased)
reconciled record with itself is a genuine no-op exactly when its parent set
is `None`. -/
theorem c6_idempotence_amended (a b : Author) (ha : Wf a) (hb : Wf b)
    (hf : a.filn = b.filn) (r1 r2 r3 : Str) :
    (∃ m, a.merge a r1 = .ok m ∧ m.name = a.name ∧
      m.author_id = a.author_id ∧
      m.parent_id = a.parent_id.map
        (fun p => pyJoin '|' (sortStrs (pySplit '|' p ++ pySplit '|' p))) ∧
      (∀ p q, a.parent_id = some p → m.parent_id = some q →
        (pySplit '|' q).toFinset = (pySplit '|' p).toFinset)) ∧
    (∀ m, a.merge b r2 = .ok m → m.parent_id = none →
      m.merge m r3 = .ok m) := by
  constructor
  · obtain ⟨m, hm, hname, hid, hpid, hwf, hfiln⟩ := merge_spec ha ha rfl r1
    refine ⟨m, hm, ?_, ?_, ?_, ?_⟩
    · rw [hname, if_neg (lt_irrefl _)]
    · rw [hid, pyMax_self]
    · rw [hpid]; cases a.parent_id <;> rfl
    · intro p q hp hq
      rw [hpid, hp] at hq
      have hqe := Option.some.inj hq
      rw [← hqe, mergedPid_toFinset, Finset.union_self]
  · intro m hm2 hpnone
    obtain ⟨m', hm', hn', hi', hp', hwf', hfiln'⟩ := merge_spec ha hb hf r2
    have hmm : m' = m := Except.ok.inj (hm'.symm.trans hm2)
    subst hmm
    obtain ⟨m2, hm2', hn2, hi2, hp2, hwf2, hfiln2⟩ := merge_spec hwf' hwf' rfl r3
    have hnq : m2.name = m'.name := by rw [hn2, if_neg (lt_irrefl _)]
    have hidq : m2.author_id = m'.author_id := by rw [hi2, pyMax_self]
    have hpq : m2.parent_id = none := by rw [hp2, hpnone]
    obtain ⟨c, f, l, hsp⟩ := splitsOk_iff.mp hwf'.2.1
    have hf1 : m'.filn = (c, l) := hfiln' c f l hsp
    have hf2 : m2.filn = (c, l) := hfiln2 c f l (by rw [hnq]; exact hsp)
    have hmeq : m2 = m' := by
      rcases m2 with ⟨n2, i2, p2, f2⟩
      rcases m' with ⟨n1, i1, p1, f1⟩
      simp only at hnq hidq hpq hf1 hf2 hpnone
      simp [hnq, hidq, hpq, hpnone, hf1, hf2]
    rw [hm2', hmeq]

/-- Witness for the amended C6 theorem at a concrete input. -/
theorem c6_idempotence_amended_witness :
    (∃ m, Author.merge aC6w aC6w [] = .ok m ∧ m.name = aC6w.name ∧
      m.author_id = aC6w.author_id ∧
      m.parent_id = aC6w.parent_id.map
        (fun p => pyJoin '|' (sortStrs (pySplit '|' p ++ pySplit '|' p))) ∧
      (∀ p q, aC6w.parent_id = some p → m.parent_id = some q →
        (pySplit '|' q).toFinset = (pySplit '|' p).toFinset)) ∧
    (∀ m, Author.merge aC6w bC6w [] = .ok m → m.parent_id = none →
      m.merge m [] = .ok m) :=
  c6_idempotence_amended aC6w bC6w (by decide) (by decide) (by decide) [] [] []

/-- C7 (amended): the two argument orders of a merge of well-formed authors
with equal match keys agree on the canonical id (the `max` is symmetric) and
on the merged parent-id value (the sorted concatenation is
permutation-invariant), and produce identical records whenever the two names
have different lengths or are equal; with equal-length distinct names each
call keeps its own first argument's name. -/
theorem c7_commutativity_amended (a b : Author) (ha : Wf a) (hb : Wf b)
    (hf : a.filn = b.filn) (r1 r2 : Str) :
    ∃ m1 m2, a.merge b r1 = .ok m1 ∧ b.merge a r2 = .ok m2 ∧
      m1.author_id = m2.author_id ∧ m1.parent_id = m2.parent_id ∧
      (a.name.length ≠ b.name.length → m1 = m2) ∧
      (a.name = b.name → m1 = m2) := by
  obtain ⟨m1, hm1, hn1, hi1, hp1, hwf1, hfiln1⟩ := merge_spec ha hb hf r1
  obtain ⟨m2, hm2, hn2, hi2, hp2, hwf2, hfiln2⟩ := merge_spec hb ha hf.symm r2
  have hid : m1.author_id = m2.author_id := by
    rw [hi1, hi2, pyMax_comm]
  have hpid : m1.parent_id = m2.parent_id := by
    rw [hp1, hp2]
    cases a.parent_id <;> cases b.parent_id <;>
      simp [sortStrs_append_comm]
  have hnamecase : m1.name = m2.name → m1 = m2 := by
    intro hname
    obtain ⟨c, f, l, hsp⟩ := splitsOk_iff.mp hwf1.2.1
    have hfa : m1.filn = (c, l) := hfiln1 c f l hsp
    have hfb : m2.filn = (c, l) := hfiln2 c f l (by rw [← hname]; exact hsp)
    rcases m1 with ⟨x1, x2, x3, x4⟩
    rcases m2 with ⟨y1, y2, y3, y4⟩
    simp only at hname hid hpid hfa hfb
    simp [hname, hid, hpid, hfa, hfb]
  refine ⟨m1, m2, hm1, hm2, hid, hpid, ?_, ?_⟩
  · intro hlen
    apply hnamecase
    rw [hn1, hn2]
    rcases Nat.lt_or_ge a.name.length b.name.length with h | h
    · rw [if_pos h, if_neg (by omega)]
    · rw [if_neg (by omega), if_pos (by omega)]
  · intro heq
    apply hnamecase
    rw [hn1, hn2, heq]

/-- Witness for the amended C7 theorem at a concrete input. -/
theorem c7_commutativity_amended_witness :
    ∃ m1 m2, Author.merge aC4w bC4w [] = .ok m1 ∧
      Author.merge bC4w aC4w [] = .ok m2 ∧
      m1.author_id = m2.author_id ∧ m1.parent_id = m2.parent_id ∧
      (aC4w.name.length ≠ bC4w.name.length → m1 = m2) ∧
      (aC4w.name = bC4w.name → m1 = m2) :=
  c7_commutativity_amended aC4w bC4w (by decide) (by decide) (by decide) [] []

/-- C8 (amended): author construction fails with the unpack `ValueError`
exactly when the name contains no space character (internal whitespace other
than a space, such as a tab, does not help), fails with `IndexError` exactly
when the name starts with its only space, and otherwise succeeds, storing
the diacritic-normalised display name and the match key made of the first
character of the lowercased name and the lowercased text after the last
space. -/
theorem c8_construction_amended (name : Str) (aid pid : Option Str)
    (rand : Str) :
    (mkAuthor name aid pid rand = .error .valueError ↔ ' ' ∉ name) ∧
    (mkAuthor name aid pid rand = .error .indexError ↔
      ∃ v, pyLower name = ' ' :: v ∧ ' ' ∉ v) ∧
    (∀ a, mkAuthor name aid pid rand = .ok a →
      a.name = shave_marks_latin name ∧ a.author_id = makeId aid rand ∧
      a.parent_id = pid ∧
      ∃ c f l, rsplitSpace (pyLower name) = some (c :: f, l) ∧
        a.filn = (c, l)) := by
  have hsp : ' ' ∈ pyLower name ↔ ' ' ∈ name := mem_space_pyLower
  refine ⟨?_, ?_, ?_⟩
  · rcases h : rsplitSpace (pyLower name) with _ | ⟨u, v⟩
    · have : ' ' ∉ pyLower name := rsplitSpace_eq_none.mp h
      simp only [mkAuthor, h]
      exact ⟨fun _ => fun hm => this (hsp.mpr hm), fun _ => trivial⟩
    · have hmem : ' ' ∈ pyLower name := by
        have := rsplitSpace_eq_some.mp h
        rw [this.1]
        exact List.mem_append.mpr (Or.inr (List.mem_cons_self _ _))
      rcases u with _ | ⟨c, f⟩ <;> simp only [mkAuthor, h]
      · constructor
        · intro hx; exact absurd (Except.error.inj hx) (by decide)
        · intro hx; exact absurd (hsp.mp hmem) hx
      · constructor
        · intro hx; exact Except.noConfusion hx
        · intro hx; exact absurd (hsp.mp hmem) hx
  · rcases h : rsplitSpace (pyLower name) with _ | ⟨u, v⟩
    · have hno : ' ' ∉ pyLower name := rsplitSpace_eq_none.mp h
      simp only [mkAuthor, h]
      constructor
      · intro hx; exact absurd (Except.error.inj hx) (by decide)
      · rintro ⟨v, hv, -⟩
        exact absurd (hv ▸ List.mem_cons_self ' ' v) hno
    · obtain ⟨he, hnv⟩ := rsplitSpace_eq_some.mp h
      rcases u with _ | ⟨c, f⟩
      · simp only [mkAuthor, h]
        simp only [List.nil_append] at he
        exact ⟨fun _ => ⟨v, he, hnv⟩, fun _ => trivial⟩
      · simp only [mkAuthor, h]
        constructor
        · intro hx; exact Except.noConfusion hx
        · rintro ⟨v', hv', hnv'⟩
          rw [he] at hv'
          obtain ⟨h1, h2⟩ := List.cons.inj hv'
          subst h1
          have : ' ' ∈ v' := by
            rw [← h2]
            exact List.mem_append.mpr (Or.inr (List.mem_cons_self _ _))
          exact absurd this hnv'
  · intro a hx
    rcases h : rsplitSpace (pyLower name) with _ | ⟨u, v⟩
    · rw [mkAuthor, h] at hx; exact Except.noConfusion hx
    · rcases u with _ | ⟨c, f⟩
      · rw [mkAuthor, h] at hx; exact Except.noConfusion hx
      · rw [mkAuthor_of_rsplit h] at hx
        have := Except.ok.inj hx
        subst this
        exact ⟨rfl, rfl, rfl, c, f, v, rfl, rfl⟩

/-- Witness for the amended C8 theorem at a concrete input. -/
theorem c8_construction_amended_witness :
    (mkAuthor "Jane Doe".toList (some "J1".toList) none "R".toList
        = .error .valueError ↔ ' ' ∉ "Jane Doe".toList) ∧
    ((⟨"Jane Doe".toList, "J1".toList, none,
        ('j', "doe".toList)⟩ : Author).name
      = shave_marks_latin "Jane Doe".toList) ∧
    (⟨"Jane Doe".toList, "J1".toList, none,
        ('j', "doe".toList)⟩ : Author).filn = ('j', "doe".toList) := by
  have h := c8_construction_amended "Jane Doe".toList (some "J1".toList) none
    "R".toList
  refine ⟨h.1, ?_, by decide⟩
  exact (h.2.2 ⟨"Jane Doe".toList, "J1".toList, none, ('j', "doe".toList)⟩
    (by decide)).1

/-- One hop-exhausted `process_response` round: `max_page` is forced to
zero, the profile metadata is harvested, and no follow-up is emitted. -/
theorem procExhausted (maxHops : Nat) (r : AuthorReq) (pg : ProfilePage)
    (h : r.hop ≥ maxHops) :
    processAuthorResponse maxHops r pg =
      ({ r with max_page := 0, profile_name := pg.profile_name,
                author_id := pg.user_id, full_title := pg.full_title,
                institution := pg.institution,
                email_domain := pg.email_domain,
                interests := pg.interests }, []) := by
  unfold processAuthorResponse
  rw [if_pos h]
  simp [AuthorReq.parse]

/-- Processing a hop-exhausted `Author` request over any page sequence emits
no follow-ups, keeps the hop counter, and ends with `max_page` zero and the
metadata of the last processed page. -/
theorem runExhausted (maxHops : Nat) :
    ∀ (pages : List ProfilePage) (r : AuthorReq), r.hop ≥ maxHops →
    (runAuthorRequest maxHops r pages).2 = [] ∧
    (runAuthorRequest maxHops r pages).1.hop = r.hop ∧
    (∀ pgLast, pages.getLast? = some pgLast →
      (runAuthorRequest maxHops r pages).1.max_page = 0 ∧
      (runAuthorRequest maxHops r pages).1.profile_name = pgLast.profile_name ∧
      (runAuthorRequest maxHops r pages).1.institution = pgLast.institution ∧
      (runAuthorRequest maxHops r pages).1.email_domain = pgLast.email_domain ∧
      (runAuthorRequest maxHops r pages).1.interests = pgLast.interests) := by
  intro pages
  induction pages with
  | nil =>
    intro r hge
    exact ⟨rfl, rfl, fun pg h => Option.noConfusion h⟩
  | cons pg rest ih =>
    intro r hge
    have hr1 := procExhausted maxHops r pg hge
    have ih2 := ih { r with max_page := 0, profile_name := pg.profile_name,
                            author_id := pg.user_id,
                            full_title := pg.full_title,
                            institution := pg.institution,
                            email_domain := pg.email_domain,
                            interests := pg.interests } hge
    simp only [runAuthorRequest, hr1, List.nil_append]
    refine ⟨ih2.1, ih2.2.1, ?_⟩
    intro pgLast hlast
    rcases rest with _ | ⟨pg2, rest2⟩
    · have : pgLast = pg := by
        simp only [List.getLast?_singleton] at hlast
        exact (Option.some.inj hlast).symm
      subst this
      simp [runAuthorRequest]
    · rw [List.getLast?_cons_cons] at hlast
      exact ih2.2.2 pgLast hlast

/-- C9 counterexample: for a hop-exhausted `Author` request popped with
`max_page = 2`, `get_next` computes the URL list before `process_response`
forces `max_page` to zero, so two profile pages are fetched, not exactly
one. -/
theorem c9_counterexample :
    reqC9.hop ≥ 1 ∧ reqC9.request_url ≠ [] ∧
    fetchCount reqC9 = 2 ∧ ¬ fetchCount reqC9 = 1 := by
  refine ⟨by decide, by decide, by decide, by decide⟩

/-- C9 (amended): for an `Author` request processed with `hop >= max_hops`
the scheduler does force `max_page` to zero, zero follow-up `TitleSearch`
requests are emitted, and the profile metadata is still harvested (from the
last fetched page); but the number of profile page URLs fetched is the one
computed from the request's `max_page` at pop time — `max_page` pages when
positive, one page only when `max_page` was already zero — not exactly
one. -/
theorem c9_hop_exhaustion_amended (maxHops : Nat) (req : AuthorReq)
    (pages : List ProfilePage) (hhop : req.hop ≥ maxHops)
    (hurl : req.request_url ≠ []) (hlen : pages.length = fetchCount req) :
    fetchCount req = (if req.max_page = 0 then 1 else req.max_page) ∧
    (runAuthorRequest maxHops req pages).2 = [] ∧
    pages ≠ [] ∧
    (∀ pgLast, pages.getLast? = some pgLast →
      (runAuthorRequest maxHops req pages).1.max_page = 0 ∧
      (runAuthorRequest maxHops req pages).1.profile_name
        = pgLast.profile_name ∧
      (runAuthorRequest maxHops req pages).1.institution
        = pgLast.institution ∧
      (runAuthorRequest maxHops req pages).1.email_domain
        = pgLast.email_domain ∧
      (runAuthorRequest maxHops req pages).1.interests = pgLast.interests) := by
  have hcount : fetchCount req = (if req.max_page = 0 then 1 else req.max_page) := by
    unfold fetchCount AuthorReq.urls
    rw [if_neg hurl]
    by_cases h0 : req.max_page = 0
    · rw [if_pos h0, if_pos h0]
      rfl
    · rw [if_neg h0, if_neg h0]
      rw [List.length_map, List.length_range]
  have hrun := runExhausted maxHops pages req hhop
  refine ⟨hcount, hrun.1, ?_, fun pgLast hl => hrun.2.2 pgLast hl⟩
  intro hnil
  rw [hnil] at hlen
  rw [hcount] at hlen
  by_cases h0 : req.max_page = 0
  · rw [if_pos h0] at hlen
    exact Nat.noConfusion hlen
  · rw [if_neg h0] at hlen
    exact h0 hlen.symm

/-- Witness for the amended C9 theorem at a concrete input. -/
theorem c9_hop_exhaustion_amended_witness :
    fetchCount reqC9 = (if reqC9.max_page = 0 then 1 else reqC9.max_page) ∧
    (runAuthorRequest 1 reqC9 [pgC9a, pgC9b]).2 = [] ∧
    [pgC9a, pgC9b] ≠ [] ∧
    (∀ pgLast, [pgC9a, pgC9b].getLast? = some pgLast →
      (runAuthorRequest 1 reqC9 [pgC9a, pgC9b]).1.max_page = 0 ∧
      (runAuthorRequest 1 reqC9 [pgC9a, pgC9b]).1.profile_name
        = pgLast.profile_name ∧
      (runAuthorRequest 1 reqC9 [pgC9a, pgC9b]).1.institution
        = pgLast.institution ∧
      (runAuthorRequest 1 reqC9 [pgC9a, pgC9b]).1.email_domain
        = pgLast.email_domain ∧
      (runAuthorRequest 1 reqC9 [pgC9a, pgC9b]).1.interests
        = pgLast.interests) :=
  c9_hop_exhaustion_amended 1 reqC9 [pgC9a, pgC9b] (by decide) (by decide)
    (by decide)

/-! ### Lemmas for the clique-closure claim -/

theorem combos2_length : ∀ l : List Str, (combos2 l).length = Nat.choose l.length 2
  | [] => rfl
  | x :: t => by
    simp only [combos2, List.length_append, List.length_map, combos2_length t,
      List.length_cons]
    rw [Nat.choose, Nat.choose_one_right]

theorem mem_combos2_of {x y : Str} :
    ∀ {l : List Str}, x ∈ l → y ∈ l → x ≠ y →
      (x, y) ∈ combos2 l ∨ (y, x) ∈ combos2 l := by
  intro l
  induction l with
  | nil => intro hx; cases hx
  | cons z t ih =>
    intro hx hy hne
    rcases List.mem_cons.mp hx with hxz | hx2
    · have hy2 : y ∈ t := by
        rcases List.mem_cons.mp hy with hyz | h
        · exact absurd (hyz.trans hxz.symm).symm hne
        · exact h
      left
      simp only [combos2, List.mem_append]
      left
      exact List.mem_map.mpr ⟨y, hy2, by rw [hxz]⟩
    · rcases List.mem_cons.mp hy with hyz | hy2
      · right
        simp only [combos2, List.mem_append]
        left
        exact List.mem_map.mpr ⟨x, hx2, by rw [hyz]⟩
      · rcases ih hx2 hy2 hne with h | h
        · left; simp only [combos2, List.mem_append]; right; exact h
        · right; simp only [combos2, List.mem_append]; right; exact h

theorem mem_combos2_elim {x y : Str} :
    ∀ {l : List Str}, (x, y) ∈ combos2 l →
      x ∈ l ∧ y ∈ l ∧ (l.Nodup → x ≠ y) := by
  intro l
  induction l with
  | nil => intro h; cases h
  | cons z t ih =>
    intro h
    simp only [combos2, List.mem_append] at h
    rcases h with h | h
    · obtain ⟨w, hw, he⟩ := List.mem_map.mp h
      obtain ⟨h1, h2⟩ := Prod.mk.inj he
      subst h1; subst h2
      refine ⟨List.mem_cons_self _ _, List.mem_cons_of_mem _ hw, ?_⟩
      intro hnd heq
      refine (List.nodup_cons.mp hnd).1 ?_
      rw [heq]; exact hw
    · have h2 := ih h
      exact ⟨List.mem_cons_of_mem _ h2.1, List.mem_cons_of_mem _ h2.2.1,
        fun hnd => h2.2.2 (List.nodup_cons.mp hnd).2⟩

theorem mem_listFlat {α β : Type} {f : α → List β} {b : β} {a : α} :
    ∀ {l : List α}, b ∈ f a → a ∈ l → b ∈ listFlat f l := by
  intro l
  induction l with
  | nil => intro _ h; cases h
  | cons z t ih =>
    intro hb ha
    simp only [listFlat, List.mem_append]
    rcases List.mem_cons.mp ha with h | h
    · left; rw [← h]; exact hb
    · right; exact ih hb h

theorem filter_edgeBlock_self (d : Document) (S : List Str) :
    (edgeBlock (d, S)).filter (fun x => x.2.2 = d.doc_id) = edgeBlock (d, S) := by
  apply List.filter_eq_self.mpr
  intro x hx
  obtain ⟨p, hp, he⟩ := List.mem_map.mp hx
  rw [← he]
  simp [edgeBlock]

theorem filter_edgeBlock_ne {e : Document × List Str} {did : Str}
    (h : e.1.doc_id ≠ did) :
    (edgeBlock e).filter (fun x => x.2.2 = did) = [] := by
  apply List.filter_eq_nil_iff.mpr
  intro x hx
  obtain ⟨p, hp, he⟩ := List.mem_map.mp hx
  rw [← he]
  simp [h]

theorem filter_listFlat_blocks {did : Str} :
    ∀ {l : List (Document × List Str)}, (∀ e ∈ l, e.1.doc_id ≠ did) →
      (listFlat edgeBlock l).filter (fun x => x.2.2 = did) = [] := by
  intro l
  induction l with
  | nil => intro _; rfl
  | cons e t ih =>
    intro h
    simp only [listFlat, List.filter_append]
    rw [filter_edgeBlock_ne (h e (List.mem_cons_self e t)),
      ih (fun a ha => h a (List.mem_cons_of_mem _ ha))]
    rfl

theorem filter_edge_list_eq {l : List (Document × List Str)} {d : Document}
    {S : List Str} :
    (d, S) ∈ l → l.Pairwise (fun e1 e2 => e1.1.doc_id ≠ e2.1.doc_id) →
    (listFlat edgeBlock l).filter (fun x => x.2.2 = d.doc_id)
      = edgeBlock (d, S) := by
  intro hmem hpw
  induction l with
  | nil => cases hmem
  | cons e t ih =>
    obtain ⟨hhead, hpw2⟩ := List.pairwise_cons.mp hpw
    simp only [listFlat, List.filter_append]
    rcases List.mem_cons.mp hmem with he | hmem2
    · subst he
      rw [filter_edgeBlock_self d S,
        filter_listFlat_blocks (fun a ha => (hhead a ha).symm),
        List.append_nil]
    · have hne : e.1.doc_id ≠ d.doc_id := hhead (d, S) hmem2
      rw [filter_edgeBlock_ne hne, List.nil_append]
      exact ih hmem2 hpw2

theorem setAdd_nodup {s : List Str} {x : Str} (h : s.Nodup) :
    (setAdd s x).Nodup := by
  unfold setAdd
  by_cases hx : x ∈ s
  · rw [if_pos hx]; exact h
  · rw [if_neg hx]
    refine List.Nodup.append h (List.nodup_singleton x) ?_
    intro a ha hax
    rw [List.mem_singleton] at hax
    subst hax
    exact hx ha

theorem addAuthor_documents (g : Graph) (name : Str) (aid : Option Str)
    (rand : Str) : (addAuthor g name aid rand).1.documents = g.documents := by
  unfold addAuthor
  rcases mkAuthor name aid none rand with e | a <;> rfl

theorem dedupScan_documents (dca : Author) (ix : Nat) (newDoc : Bool) :
    ∀ (aIds : List Str) (g : Graph) (dcs : List Author),
      (dedupScan dca ix newDoc g dcs aIds).1.documents = g.documents := by
  intro aIds
  induction aIds with
  | nil => intro g dcs; rfl
  | cons aId rest ih =>
    intro g dcs
    rcases h : dictLookup g.author_ids aId with _ | pca
    · simp [dedupScan, h]
    · simp only [dedupScan, h]
      by_cases hf : dca.filn = pca.filn
      · rw [if_pos hf]
        by_cases hnd : newDoc
        · rw [if_pos hnd]
          exact ih g (dcs.set ix pca)
        · rw [if_neg hnd]
          rcases hm : dca.merge pca [] with e | na
          · simp [hm]
          · simp only [hm]
            exact ih _ (dcs.set ix na)
      · rw [if_neg hf]
        exact ih g dcs

theorem dedupOuter_documents (parent : Author) (newDoc : Bool) (aIds : List Str) :
    ∀ (n : Nat) (g : Graph) (dcs : List Author),
      (dedupOuter parent newDoc aIds g dcs n).1.documents = g.documents := by
  intro n
  induction n with
  | zero => intro g dcs; rfl
  | succ ix ih =>
    intro g dcs
    rcases hx : dcs[ix]? with _ | dca
    · simp only [dedupOuter, hx]
      exact ih g dcs
    · simp only [dedupOuter, hx]
      by_cases hf : parent.filn = dca.filn
      · rw [if_pos hf]
        by_cases hnd : newDoc
        · rw [if_pos hnd]
          exact ih g (dcs.eraseIdx ix)
        · rw [if_neg hnd]
          exact ih _ (dcs.eraseIdx ix)
      · rw [if_neg hf]
        rcases hs : dedupScan dca ix newDoc g dcs aIds with ⟨g2, dcs2, e2⟩
        have hd := dedupScan_documents dca ix newDoc aIds g dcs
        rw [hs] at hd
        rcases e2 with _ | e
        · simp only [hs]
          exact (ih g2 dcs2).trans hd
        · simp only [hs]
          exact hd

theorem deduplicateCoauthors_documents (g : Graph) (parent : Author)
    (dcs : List Author) (newDoc : Bool) :
    (deduplicateCoauthors g parent dcs newDoc).1.documents = g.documents := by
  unfold deduplicateCoauthors
  exact dedupOuter_documents parent newDoc _ _ _ _

theorem mem_docInsert {e : Document × List Str} {d : Document} {v : List Str} :
    ∀ {m : List (Document × List Str)}, e ∈ docInsert m d v →
      e ∈ m ∨ e.2 = v := by
  intro m
  induction m with
  | nil =>
    intro h
    simp only [docInsert] at h
    rcases List.mem_singleton.mp h with h2
    right; rw [h2]
  | cons p t ih =>
    intro h
    simp only [docInsert] at h
    by_cases hfp : p.1.fingerprint = d.fingerprint
    · rcases p with ⟨d1, v1⟩
      rw [if_pos hfp] at h
      rcases List.mem_cons.mp h with h2 | h2
      · right; rw [h2]
      · left; exact List.mem_cons_of_mem _ h2
    · rcases p with ⟨d1, v1⟩
      rw [if_neg hfp] at h
      rcases List.mem_cons.mp h with h2 | h2
      · left; rw [h2]; exact List.mem_cons_self _ _
      · rcases ih h2 with h3 | h3
        · left; exact List.mem_cons_of_mem _ h3
        · right; exact h3

theorem addDocumentFinish_documents (g : Graph) (doc : Document)
    (parent : Author) (dcs0 : List Author) (newDoc : Bool) :
    (addDocumentFinish g doc parent dcs0 newDoc).1.documents = g.documents ∨
    ∃ ids, (addDocumentFinish g doc parent dcs0 newDoc).1.documents
        = docInsert g.documents doc ids ∧ ids.Nodup := by
  have hd := deduplicateCoauthors_documents g parent dcs0 newDoc
  unfold addDocumentFinish
  rcases h5 : deduplicateCoauthors g parent dcs0 newDoc with ⟨g1, dcs, e5⟩
  rw [h5] at hd
  rcases e5 with _ | e
  · right
    refine ⟨setAdd (dcs.map (fun a => a.author_id)).dedup doc.parent_author,
      ?_, setAdd_nodup (List.nodup_dedup _)⟩
    show docInsert g1.documents doc _ = _
    rw [hd]
  · left; exact hd

theorem addDocument_documents (md5 : Str → Nat) (g : Graph) (din : DocInput)
    (dr : Str) (crs : List Str) :
    (addDocument md5 g din dr crs).1.documents = g.documents ∨
    ∃ doc ids, (addDocument md5 g din dr crs).1.documents
        = docInsert g.documents doc ids ∧ ids.Nodup := by
  rcases h1 : mkDocument md5 dr din with e | doc
  · left; simp [addDocument, h1]
  · simp only [addDocument, h1]
    by_cases hlen : doc.authors.length ≤ 1
    · rw [if_pos hlen]; left; rfl
    · rw [if_neg hlen]
      rcases h2 : dictLookup g.author_ids doc.parent_author with _ | parent
      · left; rfl
      · rcases h3 : docLookup g.documents doc.fingerprint with _ | ids0
        · rcases h4 : buildCoauthors doc.parent_author doc.authors crs with e | dcs0
          · simp only [h3, h4, Except.map]
            left; trivial
          · simp only [h3, h4, Except.map]
            rcases addDocumentFinish_documents g doc parent dcs0 true with
              h | ⟨ids, hi, hn⟩
            · left; exact h
            · right; exact ⟨doc, ids, hi, hn⟩
        · rcases h4 : resolveIds g (sortStrs ids0) with e | dcs0
          · simp only [h3, h4, Except.map]
            left; trivial
          · simp only [h3, h4, Except.map]
            rcases addDocumentFinish_documents g doc parent dcs0 false with
              h | ⟨ids, hi, hn⟩
            · left; exact h
            · right; exact ⟨doc, ids, hi, hn⟩

/-- Every resolved-coauthor-id set recorded under `documents` in a reachable
state is duplicate-free. -/
theorem reachable_documents_nodup {md5 : Str → Nat} {g : Graph}
    (h : Reachable md5 g) : ∀ e ∈ g.documents, e.2.Nodup := by
  induction h with
  | empty => intro e he; cases he
  | addA h2 name aid rand ih =>
    intro e he
    rw [addAuthor_documents] at he
    exact ih e he
  | addD h2 din dr crs ih =>
    intro e he
    rcases addDocument_documents md5 _ din dr crs with heq | ⟨doc, ids, heq, hnd⟩
    · rw [heq] at he; exact ih e he
    · rw [heq] at he
      rcases mem_docInsert he with h3 | h3
      · exact ih e h3
      · rw [h3]; exact hnd

/-- C1 (confirmed): after any sequence of `add_author` / `add_document`
operations, every document recorded in the graph with resolved coauthor set
`S` (duplicate-free, of size `S.length`) is realised in the edge list as
exactly `C(|S|, 2)` edges labeled with that document's id: every unordered
pair of `S` appears (as one row in one of its two orientations), and every
row carrying that document's label joins two distinct members of `S`.  The
hypothesis that the recorded documents carry pairwise distinct `doc_id`
labels reflects that the randomly drawn ids identify documents. -/
theorem c1_clique_closure (md5_11 : Str → Nat) (g : Graph)
    (hreach : Reachable md5_11 g)
    (hinj : g.documents.Pairwise (fun e1 e2 => e1.1.doc_id ≠ e2.1.doc_id))
    (d : Document) (S : List Str) (hmem : (d, S) ∈ g.documents) :
    S.Nodup ∧
    (∀ x y, x ∈ S → y ∈ S → x ≠ y →
      (x, y, d.doc_id) ∈ edge_list g ∨ (y, x, d.doc_id) ∈ edge_list g) ∧
    ((edge_list g).filter (fun e => e.2.2 = d.doc_id)).length
      = Nat.choose S.length 2 ∧
    (∀ x y lbl, (x, y, lbl) ∈ edge_list g → lbl = d.doc_id →
      x ∈ S ∧ y ∈ S ∧ x ≠ y) := by
  have hnd : S.Nodup := reachable_documents_nodup hreach (d, S) hmem
  have hnds : (sortStrs S).Nodup := (sortStrs_perm S).nodup_iff.mpr hnd
  have hblock := filter_edge_list_eq hmem hinj
  refine ⟨hnd, ?_, ?_, ?_⟩
  · intro x y hx hy hne
    rcases mem_combos2_of (mem_sortStrs.mpr hx) (mem_sortStrs.mpr hy) hne with
      h | h
    · exact Or.inl (mem_listFlat (List.mem_map.mpr ⟨(x, y), h, rfl⟩) hmem)
    · exact Or.inr (mem_listFlat (List.mem_map.mpr ⟨(y, x), h, rfl⟩) hmem)
  · show ((listFlat edgeBlock g.documents).filter
      (fun e => e.2.2 = d.doc_id)).length = Nat.choose S.length 2
    rw [hblock]
    unfold edgeBlock
    rw [List.length_map, combos2_length, (sortStrs_perm S).length_eq]
  · intro x y lbl hmem2 hlbl
    subst hlbl
    have hf : (x, y, d.doc_id) ∈ (listFlat edgeBlock g.documents).filter
        (fun e => e.2.2 = d.doc_id) :=
      List.mem_filter.mpr ⟨hmem2, by simp⟩
    rw [hblock] at hf
    obtain ⟨p, hp, he⟩ := List.mem_map.mp hf
    obtain ⟨h1, h2⟩ := Prod.mk.inj he
    obtain ⟨h2, -⟩ := Prod.mk.inj h2
    have hel := mem_combos2_elim (l := sortStrs S)
      (show (p.1, p.2) ∈ combos2 (sortStrs S) from hp)
    refine ⟨mem_sortStrs.mp (by rw [← h1]; exact hel.1),
      mem_sortStrs.mp (by rw [← h2]; exact hel.2.1), ?_⟩
    rw [← h1, ← h2]
    exact hel.2.2 hnds

/-- Witness for the clique-closure theorem at a concrete reachable state. -/
theorem c1_clique_closure_witness :
    sXw.Nodup ∧
    (∀ x y, x ∈ sXw → y ∈ sXw → x ≠ y →
      (x, y, docXw.doc_id) ∈ edge_list gX ∨
      (y, x, docXw.doc_id) ∈ edge_list gX) ∧
    ((edge_list gX).filter (fun e => e.2.2 = docXw.doc_id)).length
      = Nat.choose sXw.length 2 ∧
    (∀ x y lbl, (x, y, lbl) ∈ edge_list gX → lbl = docXw.doc_id →
      x ∈ sXw ∧ y ∈ sXw ∧ x ≠ y) :=
  c1_clique_closure hashModel gX
    (Reachable.addD (Reachable.addA Reachable.empty "Jane Doe".toList
      (some "JD01".toList) "R0".toList) dinX "D1".toList
      ["RA".toList, "RB".toList])
    (by decide) docXw sXw (by decide)

/-- One step of the shave scan, as a rewriting equation. -/
theorem shaveCore_cons (lb : Bool) (c : Char) (cs : Str) :
    shaveCore lb (c :: cs) =
      if isCombining c = true then
        (if lb = true then shaveCore lb cs else c :: shaveCore lb cs)
      else c :: shaveCore (isAsciiLetter c) cs := rfl

/-- One step of the scan state, as a rewriting equation. -/
theorem endState_cons (lb : Bool) (c : Char) (cs : Str) :
    endState lb (c :: cs)
      = endState (if isCombining c = true then lb else isAsciiLetter c) cs := rfl

/-- A combining mark is never an ASCII letter. -/
theorem not_letter_of_combining {c : Char} (h : isCombining c = true) :
    isAsciiLetter c = false := by
  have h2 : 0x300 ≤ c.toNat ∧ c.toNat ≤ 0x36F := by
    simpa [isCombining] using h
  unfold isAsciiLetter
  have hA : decide (c.toNat ≤ 90) = false := decide_eq_false (by omega)
  have hB : decide (c.toNat ≤ 122) = false := decide_eq_false (by omega)
  rw [hA, hB, Bool.and_false, Bool.and_false]
  rfl

/-- No character of the ASCII-or-combining alphabet is in the decomposition
table's domain. -/
theorem decompLookup_eq_none_of_class {c : Char}
    (h : c.toNat ≤ 0x7F ∨ isCombining c = true) : decompLookup c = none := by
  unfold decompLookup
  rcases hf : decompTable.find? (fun e => e.1 = c) with _ | e
  · rw [hf]
    rfl
  · exfalso
    have hmem := List.mem_of_find?_eq_some hf
    have hpred := List.find?_some hf
    simp only [decide_eq_true_eq] at hpred
    have hall : ∀ x ∈ decompTable,
        ¬(x.1.toNat ≤ 0x7F ∨ isCombining x.1 = true) := by decide
    rw [← hpred] at h
    exact hall e hmem h

/-- NFD is the identity on the ASCII-or-combining alphabet. -/
theorem nfd_eq_of_class : ∀ (s : Str),
    (∀ c ∈ s, c.toNat ≤ 0x7F ∨ isCombining c = true) → nfd s = s := by
  intro s
  induction s with
  | nil => intro _; rfl
  | cons c cs ih =>
    intro h
    have hc := decompLookup_eq_none_of_class (h c (List.mem_cons_self c cs))
    show nfd (c :: cs) = c :: cs
    simp only [nfd, hc]
    rw [ih (fun x hx => h x (List.mem_cons_of_mem c hx))]

/-- The shave scan only drops characters. -/
theorem mem_shaveCore : ∀ {s : Str} {lb : Bool} {c : Char},
    c ∈ shaveCore lb s → c ∈ s := by
  intro s
  induction s with
  | nil => intro lb c h; exact absurd h (List.not_mem_nil c)
  | cons x cs ih =>
    intro lb c h
    by_cases hx : isCombining x = true
    · by_cases hlb : lb = true
      · have h2 : c ∈ shaveCore lb cs := by
          rw [shaveCore_cons, if_pos hx, if_pos hlb] at h
          exact h
        exact List.mem_cons_of_mem x (ih h2)
      · have h2 : c ∈ x :: shaveCore lb cs := by
          rw [shaveCore_cons, if_pos hx, if_neg hlb] at h
          exact h
        rcases List.mem_cons.mp h2 with h3 | h3
        · rw [h3]; exact List.mem_cons_self x cs
        · exact List.mem_cons_of_mem x (ih h3)
    · have h2 : c ∈ x :: shaveCore (isAsciiLetter x) cs := by
        rw [shaveCore_cons, if_neg hx] at h
        exact h
      rcases List.mem_cons.mp h2 with h3 | h3
      · rw [h3]; exact List.mem_cons_self x cs
      · exact List.mem_cons_of_mem x (ih h3)

/-- The shave scan is idempotent from any starting state. -/
theorem shaveCore_idem : ∀ (s : Str) (lb : Bool),
    shaveCore lb (shaveCore lb s) = shaveCore lb s := by
  intro s
  induction s with
  | nil => intro lb; rfl
  | cons c cs ih =>
    intro lb
    by_cases hc : isCombining c = true
    · by_cases hlb : lb = true
      · rw [shaveCore_cons, if_pos hc, if_pos hlb]
        exact ih lb
      · rw [shaveCore_cons, if_pos hc, if_neg hlb]
        rw [shaveCore_cons, if_pos hc, if_neg hlb, ih lb]
    · rw [shaveCore_cons, if_neg hc]
      rw [shaveCore_cons, if_neg hc, ih (isAsciiLetter c)]

/-- After a latin base, the first character the shave scan keeps is not a
combining mark. -/
theorem shaveCore_head_true : ∀ (s : Str) {d : Char},
    (shaveCore true s).head? = some d → isCombining d = false := by
  intro s
  induction s with
  | nil => intro d h; exact Option.noConfusion h
  | cons c cs ih =>
    intro d h
    by_cases hc : isCombining c = true
    · have h2 : (shaveCore true cs).head? = some d := by
        rw [shaveCore_cons, if_pos hc, if_pos rfl] at h
        exact h
      exact ih h2
    · have h2 : c = d := by
        rw [shaveCore_cons, if_neg hc] at h
        simp only [List.head?_cons, Option.some.injEq] at h
        exact h
      rw [← h2]
      cases hx : isCombining c
      · rfl
      · exact absurd hx hc

/-- A letter-mark adjacency survives a cons exactly when the head is a
letter directly followed by a mark or the tail already has one. -/
theorem hasLM_cons_of {c : Char} {rest : Str}
    (h1 : isAsciiLetter c = false ∨
      ∀ d, rest.head? = some d → isCombining d = false)
    (h2 : hasLM rest = false) : hasLM (c :: rest) = false := by
  cases rest with
  | nil => rfl
  | cons d t =>
    have hstep : hasLM (c :: d :: t)
        = ((isAsciiLetter c && isCombining d) || hasLM (d :: t)) := by
      simp only [hasLM]
    rw [hstep, h2, Bool.or_false]
    rcases h1 with h1 | h1
    · rw [h1, Bool.false_and]
    · rw [h1 d rfl, Bool.and_false]

/-- The shave scan's output has no letter-mark adjacency left. -/
theorem shaveCore_no_lm : ∀ (s : Str) (lb : Bool),
    hasLM (shaveCore lb s) = false := by
  intro s
  induction s with
  | nil => intro lb; rfl
  | cons c cs ih =>
    intro lb
    by_cases hc : isCombining c = true
    · by_cases hlb : lb = true
      · rw [shaveCore_cons, if_pos hc, if_pos hlb]
        exact ih lb
      · rw [shaveCore_cons, if_pos hc, if_neg hlb]
        exact hasLM_cons_of (Or.inl (not_letter_of_combining hc)) (ih lb)
    · rw [shaveCore_cons, if_neg hc]
      by_cases hl : isAsciiLetter c = true
      · rw [hl]
        refine hasLM_cons_of (Or.inr ?_) (ih true)
        intro d hd
        exact shaveCore_head_true cs hd
      · have hl2 : isAsciiLetter c = false := by
          cases hx : isAsciiLetter c
          · rfl
          · exact absurd hx hl
        rw [hl2]
        exact hasLM_cons_of (Or.inl hl2) (ih false)

/-- Lower-casing never makes or unmakes a combining mark. -/
theorem isCombining_pyLowerChar (c : Char) :
    isCombining (pyLowerChar c) = isCombining c := by
  unfold pyLowerChar
  rcases hf : lowerTable.find? (fun e => e.1 = c) with _ | e
  · rw [hf]
    rfl
  · rw [hf]
    have hmem := List.mem_of_find?_eq_some hf
    have hpred := List.find?_some hf
    simp only [decide_eq_true_eq] at hpred
    have hall : ∀ x ∈ lowerTable,
        isCombining x.2 = false ∧ isCombining x.1 = false := by decide
    obtain ⟨h2, h1⟩ := hall e hmem
    show isCombining e.2 = isCombining c
    rw [h2, ← hpred, h1]

/-- Lower-casing never makes or unmakes an ASCII letter. -/
theorem isAsciiLetter_pyLowerChar (c : Char) :
    isAsciiLetter (pyLowerChar c) = isAsciiLetter c := by
  unfold pyLowerChar
  rcases hf : lowerTable.find? (fun e => e.1 = c) with _ | e
  · rw [hf]
    rfl
  · rw [hf]
    have hmem := List.mem_of_find?_eq_some hf
    have hpred := List.find?_some hf
    simp only [decide_eq_true_eq] at hpred
    have hall : ∀ x ∈ lowerTable,
        isAsciiLetter x.2 = isAsciiLetter x.1 := by decide
    show isAsciiLetter e.2 = isAsciiLetter c
    rw [hall e hmem, hpred]

/-- Lower-casing keeps the ASCII range inside the ASCII range. -/
theorem pyLowerChar_ascii {c : Char} (h : c.toNat ≤ 0x7F) :
    (pyLowerChar c).toNat ≤ 0x7F := by
  unfold pyLowerChar
  rcases hf : lowerTable.find? (fun e => e.1 = c) with _ | e
  · rw [hf]
    exact h
  · rw [hf]
    have hmem := List.mem_of_find?_eq_some hf
    have hpred := List.find?_some hf
    simp only [decide_eq_true_eq] at hpred
    have hall : ∀ x ∈ lowerTable, x.1.toNat ≤ 0x7F → x.2.toNat ≤ 0x7F := by
      decide
    rw [← hpred] at h
    show (e.2).toNat ≤ 0x7F
    exact hall e hmem h

/-- The shave scan commutes with lower-casing. -/
theorem shaveCore_pyLower : ∀ (s : Str) (lb : Bool),
    shaveCore lb (pyLower s) = pyLower (shaveCore lb s) := by
  intro s
  induction s with
  | nil => intro lb; rfl
  | cons c cs ih =>
    intro lb
    show shaveCore lb (pyLowerChar c :: pyLower cs)
        = pyLower (shaveCore lb (c :: cs))
    by_cases hc : isCombining c = true
    · have hc2 : isCombining (pyLowerChar c) = true := by
        rw [isCombining_pyLowerChar]; exact hc
      by_cases hlb : lb = true
      · rw [shaveCore_cons, if_pos hc2, if_pos hlb,
          shaveCore_cons, if_pos hc, if_pos hlb]
        exact ih lb
      · rw [shaveCore_cons, if_pos hc2, if_neg hlb,
          shaveCore_cons, if_pos hc, if_neg hlb]
        show pyLowerChar c :: shaveCore lb (pyLower cs)
            = pyLowerChar c :: pyLower (shaveCore lb cs)
        rw [ih lb]
    · have hc2 : ¬ isCombining (pyLowerChar c) = true := by
        rw [isCombining_pyLowerChar]; exact hc
      rw [shaveCore_cons, if_neg hc2, shaveCore_cons, if_neg hc,
        isAsciiLetter_pyLowerChar]
      show pyLowerChar c :: shaveCore (isAsciiLetter c) (pyLower cs)
          = pyLowerChar c :: pyLower (shaveCore (isAsciiLetter c) cs)
      rw [ih (isAsciiLetter c)]

/-- The shave scan distributes over append, threading its state. -/
theorem shaveCore_append : ∀ (u : Str) (lb : Bool) (v : Str),
    shaveCore lb (u ++ v) = shaveCore lb u ++ shaveCore (endState lb u) v := by
  intro u
  induction u with
  | nil => intro lb v; rfl
  | cons c u ih =>
    intro lb v
    rw [List.cons_append]
    by_cases hc : isCombining c = true
    · have he : endState lb (c :: u) = endState lb u := by
        rw [endState_cons, if_pos hc]
      rw [he]
      by_cases hlb : lb = true
      · rw [shaveCore_cons, if_pos hc, if_pos hlb,
          shaveCore_cons, if_pos hc, if_pos hlb]
        exact ih lb v
      · rw [shaveCore_cons, if_pos hc, if_neg hlb,
          shaveCore_cons, if_pos hc, if_neg hlb, ih lb v]
        rfl
    · have he : endState lb (c :: u) = endState (isAsciiLetter c) u := by
        rw [endState_cons, if_neg hc]
      rw [he]
      rw [shaveCore_cons, if_neg hc, shaveCore_cons, if_neg hc,
        ih (isAsciiLetter c) v]
      rfl

/-- A space resets the shave scan's state from any state. -/
theorem shaveCore_space (lb : Bool) (v : Str) :
    shaveCore lb (' ' :: v) = ' ' :: shaveCore false v := rfl

/-- NFC is the identity on strings without a letter-mark adjacency. -/
theorem nfc_eq_of_no_lm : ∀ (s : Str), hasLM s = false → nfc s = s
  | [], _ => rfl
  | [_], _ => rfl
  | b :: m :: t, h => by
    have hstep : hasLM (b :: m :: t)
        = ((isAsciiLetter b && isCombining m) || hasLM (m :: t)) := by
      simp only [hasLM]
    rw [hstep] at h
    have h1 : (isAsciiLetter b && isCombining m) = false := by
      cases hx : (isAsciiLetter b && isCombining m)
      · rfl
      · rw [hx] at h
        exact Bool.noConfusion h
    have h2 : hasLM (m :: t) = false := by
      cases hy : hasLM (m :: t)
      · rfl
      · rw [hy, Bool.or_true] at h
        exact Bool.noConfusion h
    have hcl : composeLookup b m = none := by
      unfold composeLookup
      rcases hf : decompTable.find? (fun e => e.2.1 = b && e.2.2 = m) with _ | e
      · rw [hf]
        rfl
      · exfalso
        have hmem := List.mem_of_find?_eq_some hf
        have hpred := List.find?_some hf
        simp only [Bool.and_eq_true, decide_eq_true_eq] at hpred
        have hall : ∀ x ∈ decompTable,
            isAsciiLetter x.2.1 = true ∧ isCombining x.2.2 = true := by decide
        obtain ⟨hb3, hm3⟩ := hall e hmem
        rw [hpred.1] at hb3
        rw [hpred.2] at hm3
        rw [hb3, hm3] at h1
        exact Bool.noConfusion h1
    have hstep2 : nfc (b :: m :: t) = b :: nfc (m :: t) := by
      simp only [nfc, hcl]
    rw [hstep2, nfc_eq_of_no_lm (m :: t) h2]

/-- On the ASCII-or-combining alphabet, `shave_marks_latin` is exactly the
keep/drop scan. -/
theorem shave_eq_core_of_class {s : Str}
    (h : ∀ c ∈ s, c.toNat ≤ 0x7F ∨ isCombining c = true) :
    shave_marks_latin s = shaveCore false s := by
  unfold shave_marks_latin
  rw [nfd_eq_of_class s h, nfc_eq_of_no_lm _ (shaveCore_no_lm s false)]

/-- On the ASCII-or-combining alphabet, `shave_marks_latin` is idempotent. -/
theorem shave_idem_of_class {s : Str}
    (h : ∀ c ∈ s, c.toNat ≤ 0x7F ∨ isCombining c = true) :
    shave_marks_latin (shave_marks_latin s) = shave_marks_latin s := by
  have h1 : shave_marks_latin s = shaveCore false s := shave_eq_core_of_class h
  have hsub : ∀ c ∈ shaveCore false s, c.toNat ≤ 0x7F ∨ isCombining c = true :=
    fun c hc => h c (mem_shaveCore hc)
  rw [h1, shave_eq_core_of_class hsub, shaveCore_idem]

/-- A merge between records with different match keys raises `ValueError`. -/
theorem merge_valueError {x y : Author} (h : x.filn ≠ y.filn) (r : Str) :
    x.merge y r = .error .valueError := by
  unfold Author.merge
  rw [if_pos h]

/-- C10: the match key is computed from the raw input name before diacritic
normalisation while the stored display name is normalised, so for every
ASCII-or-combining name whose lowercased surname token carries a combining
mark on a Latin letter, the author built from the raw name and the author
built from the shaved name have identical display names but different match
keys, and both merge directions raise `ValueError` instead of merging. -/
theorem c10_matchkey_on_raw_name (name : Str) (ia ib pa pb : Option Str)
    (ra rb : Str) (a b : Author)
    (hclass : ∀ c ∈ name, c.toNat ≤ 0x7F ∨ isCombining c = true)
    (hA : mkAuthor name ia pa ra = .ok a)
    (hB : mkAuthor (shave_marks_latin name) ib pb rb = .ok b)
    (hm : hasLM a.filn.2 = true) :
    a.name = b.name ∧ a.filn ≠ b.filn ∧
    ∀ r, a.merge b r = .error .valueError ∧
      b.merge a r = .error .valueError := by
  rcases hsa : rsplitSpace (pyLower name) with _ | ⟨u, l⟩
  · have hx : mkAuthor name ia pa ra = .error .valueError := by
      simp [mkAuthor, hsa]
    rw [hx] at hA
    exact Except.noConfusion hA
  · rcases u with _ | ⟨c, f⟩
    · have hx : mkAuthor name ia pa ra = .error .indexError := by
        simp [mkAuthor, hsa]
      rw [hx] at hA
      exact Except.noConfusion hA
    · have ha2 : a = ⟨shave_marks_latin name, makeId ia ra, pa, (c, l)⟩ := by
        rw [mkAuthor_of_rsplit hsa ia pa ra] at hA
        exact (Except.ok.inj hA).symm
      subst ha2
      obtain ⟨heq, hnv⟩ := rsplitSpace_eq_some.mp hsa
      have hsh : shave_marks_latin name = shaveCore false name :=
        shave_eq_core_of_class hclass
      have hlow : pyLower (shave_marks_latin name)
          = shaveCore false (c :: f) ++ ' ' :: shaveCore false l := by
        rw [hsh, ← shaveCore_pyLower, heq, shaveCore_append, shaveCore_space]
      have hnv2 : ' ' ∉ shaveCore false l := fun hx => hnv (mem_shaveCore hx)
      have hsb : rsplitSpace (pyLower (shave_marks_latin name))
          = some (shaveCore false (c :: f), shaveCore false l) :=
        rsplitSpace_eq_some.mpr ⟨hlow, hnv2⟩
      rcases hpre : shaveCore false (c :: f) with _ | ⟨c2, f2⟩
      · rw [hpre] at hsb
        have hx : mkAuthor (shave_marks_latin name) ib pb rb
            = .error .indexError := by
          simp [mkAuthor, hsb]
        rw [hx] at hB
        exact Except.noConfusion hB
      · rw [hpre] at hsb
        have hb2 : b = ⟨shave_marks_latin (shave_marks_latin name),
            makeId ib rb, pb, (c2, shaveCore false l)⟩ := by
          rw [mkAuthor_of_rsplit hsb ib pb rb] at hB
          exact (Except.ok.inj hB).symm
        subst hb2
        have hm2 : hasLM l = true := hm
        have hfN : ((c, l) : Char × Str) ≠ (c2, shaveCore false l) := by
          intro hx
          have hx2 : l = shaveCore false l := (Prod.mk.inj hx).2
          have hy : hasLM (shaveCore false l) = true := by
            rw [← hx2]; exact hm2
          rw [shaveCore_no_lm l false] at hy
          exact Bool.noConfusion hy
        refine ⟨(shave_idem_of_class hclass).symm, hfN, ?_⟩
        intro r
        exact ⟨merge_valueError hfN r,
          merge_valueError (fun hx => hfN hx.symm) r⟩

/-- Witness for C10 at the concrete marked name. -/
theorem c10_matchkey_on_raw_name_witness :
    aC10.name = bC10.name ∧ aC10.filn ≠ bC10.filn ∧
    ∀ r, aC10.merge bC10 r = .error .valueError ∧
      bC10.merge aC10 r = .error .valueError :=
  c10_matchkey_on_raw_name nameC10 none none none none
    "RA".toList "RB".toList aC10 bC10
    (by decide) (by decide) (by decide) (by decide)

end SC
